import Mathlib

/-!
Verification of the event-dispatch and shared-state core of the
New-store-system repository: the `EventBus` class (src/unnamed/part_002)
and the `AppStore` class (src/src/stores/AppStore.js).

The JavaScript source is shallowly embedded: plain JS values are modelled
by the inductive type `JVal`; JS objects and arrays are association lists
of string keys (for arrays the keys are the decimal index strings, which
is what `{...arr}` / `for key in arr` produce); stateful classes become
records with explicit state passing; wall-clock time (`Date.now()`,
`setTimeout`) is an explicit `Nat` parameter together with an explicit
list of pending timers.
-/

namespace StoreSystem

/-- A JavaScript value.  `vUndefined` and `vNull` are kept distinct because
the source distinguishes them (`return null` vs. an absent property). -/
inductive JVal where
  | vUndefined
  | vNull
  | vBool (b : Bool)
  | vNum (n : Int)
  | vStr (s : String)
  | vArr (elems : List JVal)
  | vObj (fields : List (String × JVal))
deriving Repr

/-- `instanceof Object` for the modelled values: arrays and plain objects
are JS objects; `null`, `undefined` and primitives are not. -/
def isJsObject : JVal → Bool
  | .vArr _ => true
  | .vObj _ => true
  | _ => false

/-- The own enumerable string-keyed properties of a value, in property
order: for a plain object its fields, for an array the index/value pairs
(`{...[1,2]}` is `{"0":1, "1":2}`), empty for primitives. -/
def JVal.fields : JVal → List (String × JVal)
  | .vObj fs => fs
  | .vArr es => es.enum.map (fun p => (toString p.1, p.2))
  | _ => []

/-- First binding of key `k` in an association list (JS property lookup;
real JS objects never have duplicate keys). -/
def lookupField : List (String × JVal) → String → Option JVal
  | [], _ => none
  | (k', v) :: rest, k => if k' = k then some v else lookupField rest k

/-- Property read `t[k]` (undefined-as-`none` when absent). -/
def lookupJ (t : JVal) (k : String) : Option JVal :=
  lookupField (JVal.fields t) k

/-- Property assignment `o[k] = v` on an object's field list: overwrite in
place if the key is present, append otherwise (JS property-order rules). -/
def setField (fs : List (String × JVal)) (k : String) (v : JVal) :
    List (String × JVal) :=
  if fs.any (fun p => p.1 = k) then
    fs.map (fun p => if p.1 = k then (k, v) else p)
  else
    fs ++ [(k, v)]

/-- Run a sequence of property assignments left to right. -/
def applyAsgs (base : List (String × JVal)) :
    List (String × JVal) → List (String × JVal)
  | [] => base
  | (k, v) :: rest => applyAsgs (setField base k v) rest

theorem snd_mem_of_mem_enumFrom {a : Nat × α} :
    ∀ {n : Nat} {l : List α}, a ∈ l.enumFrom n → a.2 ∈ l := by
  intro n l
  induction l generalizing n with
  | nil => intro h; simp at h
  | cons x xs ih =>
    intro h
    rcases List.mem_cons.mp h with h | h
    · subst h; exact List.mem_cons_self _ _
    · exact List.mem_cons_of_mem _ (ih h)

theorem sizeOf_lt_of_mem_fields {s : JVal} {k : String} {v : JVal}
    (h : (k, v) ∈ JVal.fields s) : sizeOf v < sizeOf s := by
  cases s with
  | vObj fs =>
    simp only [JVal.fields] at h
    have h1 : sizeOf (k, v) < sizeOf fs := List.sizeOf_lt_of_mem h
    have h2 : sizeOf (k, v) = 1 + sizeOf k + sizeOf v := by simp
    have h3 : sizeOf (JVal.vObj fs) = 1 + sizeOf fs := by simp
    omega
  | vArr es =>
    simp only [JVal.fields, List.mem_map] at h
    obtain ⟨a, hmem, heq⟩ := h
    have hv : a.2 = v := congrArg Prod.snd heq
    have hv2 : a.2 ∈ es := snd_mem_of_mem_enumFrom hmem
    rw [hv] at hv2
    have h1 : sizeOf v < sizeOf es := List.sizeOf_lt_of_mem hv2
    have h3 : sizeOf (JVal.vArr es) = 1 + sizeOf es := by simp
    omega
  | vUndefined => simp [JVal.fields] at h
  | vNull => simp [JVal.fields] at h
  | vBool b => simp [JVal.fields] at h
  | vNum n => simp [JVal.fields] at h
  | vStr s => simp [JVal.fields] at h

/-- `AppStore.mergeDeep(target, source)` (AppStore.js lines 176-190):

```js
mergeDeep(target, source) {
    const result = { ...target };
    for (const key in source) {
        if (source.hasOwnProperty(key)) {
            if (source[key] instanceof Object && target[key] instanceof Object) {
                result[key] = this.mergeDeep(target[key], source[key]);
            } else {
                result[key] = source[key];
            }
        }
    }
    return result;
}
```

The merged value written under each source key depends only on `target`
and that source entry, so the loop is modelled as computing the list of
assignments and then applying them in order to `{ ...target }`. -/
def mergeDeep (t s : JVal) : JVal :=
  .vObj (applyAsgs (JVal.fields t)
    ((JVal.fields s).attach.map (fun p =>
      (p.1.1,
        match lookupJ t p.1.1 with
        | some tv =>
          if isJsObject p.1.2 && isJsObject tv then mergeDeep tv p.1.2
          else p.1.2
        | none => p.1.2))))
termination_by sizeOf s
decreasing_by
  exact sizeOf_lt_of_mem_fields p.2

/-- The value `mergeDeep` assigns for one source entry `(k, sv)`. -/
def mergeVal (t : JVal) (k : String) (sv : JVal) : JVal :=
  match lookupJ t k with
  | some tv => if isJsObject sv && isJsObject tv then mergeDeep tv sv else sv
  | none => sv

/-- Last binding of key `k` in a list of assignments (the value that ends
up stored when the assignments are run in order). -/
def lookupLast : List (String × JVal) → String → Option JVal
  | [], _ => none
  | (k', v) :: rest, k =>
    match lookupLast rest k with
    | some w => some w
    | none => if k' = k then some v else none

/-- Dot-path projection through nested property reads
(`getState("ui.loading")` semantics). -/
def lookupPath (v : JVal) : List String → Option JVal
  | [] => some v
  | k :: p =>
    match lookupJ v k with
    | some u => lookupPath u p
    | none => none

/-- A dot-path of the target tree is untouched by a merge with source `s`
when, walking the path, each segment either is absent from the
corresponding source level, or is merged recursively (both sides are
objects) with the rest of the path untouched in the sub-merge.  This is
the formal reading of "key at any depth not mentioned in the partial
state". -/
def Untouched : JVal → JVal → List String → Prop
  | _, _, [] => False
  | t, s, k :: p =>
    match lookupLast (JVal.fields s) k with
    | none => True
    | some sv =>
      match lookupJ t k with
      | some tv =>
        isJsObject sv = true ∧ isJsObject tv = true ∧ Untouched tv sv p
      | none => False

/-! ## The Store (`AppStore`, src/src/stores/AppStore.js)

The JS object `this.state` holds both the mergeable data tree and three
cache slots (`cache` and `cacheTimestamps` are `Map`s, `cacheTTL` a
number).  The claims never mix the two groups, so the model keeps the
mergeable data in `stateTree` and the cache slots as separate record
fields.  `Date.now()` is an explicit `now : Nat` argument, and the
`setTimeout`-scheduled evictions of `setCache` are an explicit list of
pending `(key, fireTime)` timers; `runTimers` fires every timer that is
due at a given time, which is what the event loop has done before any
user code observed at that time runs.  Store listeners are identified by
opaque ids; `notify` reports which listeners were called (listener
exceptions are caught and logged by the source, so the call list is the
observable effect). -/

/-- JS `Map.set` / keyed update preserving insertion order. -/
def putKV {β : Type} (l : List (String × β)) (k : String) (v : β) :
    List (String × β) :=
  if l.any (fun p => p.1 = k) then
    l.map (fun p => if p.1 = k then (k, v) else p)
  else l ++ [(k, v)]

/-- JS `Map.get` (`none` for `undefined`). -/
def getKV {β : Type} : List (String × β) → String → Option β
  | [], _ => none
  | (k', v) :: rest, k => if k' = k then some v else getKV rest k

/-- JS `Map.delete`. -/
def delKV {β : Type} (l : List (String × β)) (k : String) :
    List (String × β) :=
  l.filter (fun p => p.1 ≠ k)

structure AppStore where
  stateTree : JVal
  listeners : List Nat
  middleware : List (JVal → JVal → Option JVal)
  cache : List (String × JVal)
  cacheTimestamps : List (String × Nat)
  cacheTTL : Nat
  timers : List (String × Nat)

/-- The constructor's `settings` literal. -/
def defaultSettings : JVal :=
  .vObj [("theme", .vStr "light"), ("language", .vStr "ja"),
         ("currency", .vStr "JPY"), ("timezone", .vStr "Asia/Tokyo")]

/-- The constructor's `ui` literal. -/
def defaultUi : JVal :=
  .vObj [("loading", .vBool false), ("notifications", .vArr []),
         ("modal", .vNull), ("sidebarOpen", .vBool false)]

/-- The state tree built by the constructor followed by `loadSettings`
(`{ ...defaults, ...saved }` when localStorage had settings).  The
`Date`-derived strings are parameters. -/
def initialStateTree (currentDate currentTime : String)
    (savedSettings : Option (List (String × JVal))) : JVal :=
  .vObj [("currentUser", .vNull),
         ("currentDate", .vStr currentDate),
         ("currentTime", .vStr currentTime),
         ("settings",
           match savedSettings with
           | none => defaultSettings
           | some fs => .vObj (applyAsgs (JVal.fields defaultSettings) fs)),
         ("ui", defaultUi)]

/-- `new AppStore()` (time-dependent fields and the localStorage read are
parameters); `cacheTTL: 5 * 60 * 1000`. -/
def AppStore.construct (currentDate currentTime : String)
    (savedSettings : Option (List (String × JVal))) : AppStore :=
  { stateTree := initialStateTree currentDate currentTime savedSettings
    listeners := []
    middleware := []
    cache := []
    cacheTimestamps := []
    cacheTTL := 5 * 60 * 1000
    timers := [] }

/-- The middleware fold in `setState`: each stage may replace the pending
partial state; a stage that throws or returns a falsy value (both mapped
to `none`) leaves it unchanged. -/
def applyStoreMiddleware (st : AppStore) (newState : JVal) : JVal :=
  st.middleware.foldl
    (fun acc mw =>
      match mw acc st.stateTree with
      | some r => r
      | none => acc)
    newState

/-- `AppStore.setState(newState, action)` (lines 145-168): middleware fold,
`this.state = this.mergeDeep(this.state, processedState)`, then `notify`.
The source has no failure path at all (even middleware errors are caught),
so the fallible signature always returns `.ok`; the second component is
the list of listeners that were notified. -/
def AppStore.setState (st : AppStore) (newState : JVal) :
    Except String (AppStore × List Nat) :=
  let processed := applyStoreMiddleware st newState
  .ok ({ st with stateTree := mergeDeep st.stateTree processed },
       st.listeners)

/-- `AppStore.destroy()` (lines 432-438): drops listeners and middleware and
clears both cache maps; the state tree and pending timers are untouched
and no disposed flag is recorded.  (The `saveSettings` call only touches
localStorage.) -/
def AppStore.destroy (st : AppStore) : AppStore :=
  { st with listeners := [], middleware := [], cache := [],
            cacheTimestamps := [] }

/-- `AppStore.removeCache(key)`. -/
def AppStore.removeCache (st : AppStore) (k : String) : AppStore :=
  { st with cache := delKV st.cache k,
            cacheTimestamps := delKV st.cacheTimestamps k }

/-- Fire every pending `setTimeout(() => removeCache(key), ttl)` callback
that is due at `now` (the event loop runs them before user code at
`now` observes the store). -/
def AppStore.runTimers (st : AppStore) (now : Nat) : AppStore :=
  let due := st.timers.filter (fun p => p.2 ≤ now)
  due.foldl (fun acc p => acc.removeCache p.1)
    { st with timers := st.timers.filter (fun p => ¬ p.2 ≤ now) }

/-- `AppStore.setCache(key, data, ttl)` (lines 289-299): store value and
`Date.now()` timestamp; when a (truthy) TTL is given, schedule an eviction
at `now + ttl`. -/
def AppStore.setCache (st : AppStore) (k : String) (v : JVal)
    (ttl : Option Nat) (now : Nat) : AppStore :=
  let st1 := { st with cache := putKV st.cache k v,
                       cacheTimestamps := putKV st.cacheTimestamps k now }
  match ttl with
  | some t =>
    if t ≠ 0 then { st1 with timers := st1.timers ++ [(k, now + t)] }
    else st1
  | none => st1

/-- `AppStore.getCache(key, fetcher, ttl)` (lines 308-335).  The async
fetcher is modelled by its outcome (`.ok data` or a thrown `.error`); a
rethrown fetcher error is the only failure path.  Returns the produced
value together with the updated store.  `ttl || this.state.cacheTTL` and
the truthiness test on the stored timestamp are modelled explicitly. -/
def AppStore.getCache (st : AppStore) (k : String)
    (fetcher : Option (Except JVal JVal)) (ttl : Option Nat) (now : Nat) :
    Except JVal (JVal × AppStore) :=
  let currentTTL :=
    match ttl with
    | some t => if t ≠ 0 then t else st.cacheTTL
    | none => st.cacheTTL
  let hitOrEvict : AppStore × Option JVal :=
    match getKV st.cache k, getKV st.cacheTimestamps k with
    | some v, some ts =>
      if ts ≠ 0 then
        if now - ts < currentTTL then (st, some v)
        else (st.removeCache k, none)
      else (st, none)
    | _, _ => (st, none)
  match hitOrEvict.2 with
  | some v => .ok (v, hitOrEvict.1)
  | none =>
    match fetcher with
    | some (.ok data) =>
      .ok (data, hitOrEvict.1.setCache k data (some currentTTL) now)
    | some (.error e) => .error e
    | none => .ok (.vNull, hitOrEvict.1)

/-- `setCache` observed at wall-clock time `now`: due timers fire first. -/
def AppStore.setCacheAt (st : AppStore) (k : String) (v : JVal)
    (ttl : Option Nat) (now : Nat) : AppStore :=
  (st.runTimers now).setCache k v ttl now

/-- `getCache` observed at wall-clock time `now`: due timers fire first. -/
def AppStore.getCacheAt (st : AppStore) (k : String)
    (fetcher : Option (Except JVal JVal)) (ttl : Option Nat) (now : Nat) :
    Except JVal (JVal × AppStore) :=
  (st.runTimers now).getCache k fetcher ttl now

/-! ## The Dispatcher (`EventBus`, src/unnamed/part_002)

Events carry a name and a data payload (the `timestamp`/`id`/options
fields of the JS event object play no role in any claim and are omitted).
A JS callback is modelled by an identity (`cid`, standing for reference
identity, which `off` compares with `===`) together with its behaviour:
for given `(data, event)` arguments it either returns a value or throws.
Listener ids (the `${eventName}_${Date.now()}_${Math.random()}` strings,
unique in practice) are modelled by a `nextId` counter.  `Array.sort` with
comparator `(a, b) => b.priority - a.priority` is, per the ECMAScript
specification, a stable sort by descending priority; it is modelled by
`List.mergeSort` with the corresponding total preorder. -/

structure JEvent where
  name : String
  data : JVal
deriving Repr

/-- Outcome of calling a JS callback. -/
inductive CbOutcome where
  | ret (v : JVal)
  | thr (e : JVal)
deriving Repr

structure Callback where
  cid : Nat
  run : JVal → JEvent → CbOutcome

/-- A per-name listener record as built by `EventBus.on`. -/
structure Listener where
  callback : Callback
  once : Bool
  priority : Int
  lid : Nat

/-- A wildcard listener record as built by `EventBus.onAny`. -/
structure WListener where
  callback : Callback
  lid : Nat

/-- One entry of the result list returned by `emit`: a listener's return
value, or the `{ error }` marker pushed by the catch block. -/
inductive EmitResult where
  | ok (v : JVal)
  | errMarker (e : JVal)
deriving Repr

structure EventBus where
  events : List (String × List Listener)
  history : List JEvent
  maxHistorySize : Nat
  wildcardListeners : List WListener
  middleware : List (JEvent → Option JEvent)
  nextId : Nat

/-- `new EventBus()`. -/
def EventBus.construct : EventBus :=
  { events := [], history := [], maxHistorySize := 100,
    wildcardListeners := [], middleware := [], nextId := 0 }

/-- The comparator `(a, b) => b.priority - a.priority` as the boolean total
preorder used by the stable sort: `a` may precede `b` iff
`b.priority ≤ a.priority`. -/
def prioLE (a b : Listener) : Bool := decide (b.priority ≤ a.priority)

/-- `EventBus.on(eventName, callback, options)` (lines 22-47): create the
listener record with a fresh id, push it on the event's list and re-sort
the list stably by descending priority.  Returns the new bus and the new
listener's id (the JS method returns an unsubscribe closure over that
id). -/
def EventBus.on (bus : EventBus) (eventName : String) (cb : Callback)
    (once : Bool) (priority : Int) : EventBus × Nat :=
  let lid := bus.nextId
  let listener : Listener :=
    { callback := cb, once := once, priority := priority, lid := lid }
  let cur := (getKV bus.events eventName).getD []
  let sorted := (cur ++ [listener]).mergeSort prioLE
  ({ bus with events := putKV bus.events eventName sorted,
              nextId := lid + 1 }, lid)

/-- The selector accepted by `EventBus.off`: `null`, an id string, or a
callback function (compared by reference identity). -/
inductive OffSelector where
  | all
  | byId (lid : Nat)
  | byCallback (cid : Nat)

/-- `EventBus.off(eventName, listenerIdOrCallback)` (lines 65-95): remove
everything, or the first listener matching the id / the callback; drop the
event's entry when its list becomes empty. -/
def EventBus.off (bus : EventBus) (eventName : String) (sel : OffSelector) :
    EventBus :=
  match getKV bus.events eventName with
  | none => bus
  | some listeners =>
    match sel with
    | .all => { bus with events := delKV bus.events eventName }
    | .byId lid =>
      let ls2 := listeners.eraseP (fun l => l.lid == lid)
      if ls2.length = 0 then { bus with events := delKV bus.events eventName }
      else { bus with events := putKV bus.events eventName ls2 }
    | .byCallback cid =>
      let ls2 := listeners.eraseP (fun l => l.callback.cid == cid)
      if ls2.length = 0 then { bus with events := delKV bus.events eventName }
      else { bus with events := putKV bus.events eventName ls2 }

/-- `EventBus.onAny(callback)` (lines 102-116). -/
def EventBus.onAny (bus : EventBus) (cb : Callback) : EventBus × Nat :=
  let lid := bus.nextId
  ({ bus with
      wildcardListeners := bus.wildcardListeners ++ [⟨cb, lid⟩],
      nextId := lid + 1 }, lid)

/-- The unsubscribe closure returned by `onAny`: splice out the wildcard
listener with the captured id. -/
def EventBus.offAny (bus : EventBus) (lid : Nat) : EventBus :=
  { bus with
      wildcardListeners :=
        bus.wildcardListeners.eraseP (fun l => l.lid == lid) }

/-- `EventBus.addToHistory(event)` (lines 216-223): push, then shift the
oldest entry off when the size bound is exceeded. -/
def EventBus.addToHistory (bus : EventBus) (e : JEvent) : EventBus :=
  let h := bus.history ++ [e]
  { bus with
      history := if h.length > bus.maxHistorySize then h.tail else h }

/-- The middleware fold at the start of `emit`: a stage may replace the
event; a stage that throws or returns a falsy value (both mapped to
`none`) leaves it unchanged. -/
def applyBusMiddleware (mws : List (JEvent → Option JEvent)) (e : JEvent) :
    JEvent :=
  mws.foldl
    (fun ev mw =>
      match mw ev with
      | some r => r
      | none => ev)
    e

/-- The per-name dispatch loop of `emit` (lines 160-173), over the
snapshot copy of the listener list: run the callback; on normal return
push the result and, for a `once` listener, remove it from the live list
before the next iteration; on a throw push the `{ error }` marker (the
`once` removal in the `try` block is skipped).  Returns the final bus, the
results in order, and the ids of the invoked listeners in invocation
order. -/
def runListeners (eventName : String) (pe : JEvent) :
    EventBus → List Listener → EventBus × List EmitResult × List Nat
  | bus, [] => (bus, [], [])
  | bus, l :: rest =>
    match l.callback.run pe.data pe with
    | .ret v =>
      let bus1 := if l.once then bus.off eventName (.byId l.lid) else bus
      let out := runListeners eventName pe bus1 rest
      (out.1, .ok v :: out.2.1, l.lid :: out.2.2)
    | .thr e =>
      let out := runListeners eventName pe bus rest
      (out.1, .errMarker e :: out.2.1, l.lid :: out.2.2)

/-- The wildcard dispatch loop of `emit` (lines 177-185): every wildcard
listener runs, with the same error isolation; no removal happens. -/
def runWildcards (pe : JEvent) (ws : List WListener) :
    List EmitResult × List Nat :=
  (ws.map (fun w =>
     match w.callback.run pe.data pe with
     | .ret v => EmitResult.ok v
     | .thr e => .errMarker e),
   ws.map (fun w => w.lid))

/-- `EventBus.emit(eventName, data)` (lines 125-188): build the event,
append it to the history, run the middleware, dispatch to the snapshot of
the per-name listeners and then to the wildcard listeners.  Every error is
caught inside the loops, so `emit` always resolves; its value is the final
bus, the ordered result list and the invocation order. -/
def EventBus.emit (bus : EventBus) (eventName : String) (data : JVal) :
    EventBus × List EmitResult × List Nat :=
  let event : JEvent := ⟨eventName, data⟩
  let bus1 := bus.addToHistory event
  let pe := applyBusMiddleware bus1.middleware event
  let snapshot := (getKV bus1.events eventName).getD []
  let out := runListeners eventName pe bus1 snapshot
  let wout := runWildcards pe out.1.wildcardListeners
  (out.1, out.2.1 ++ wout.1, out.2.2 ++ wout.2)

/-- `EventBus.listenerCount(eventName)` (lines 250-252). -/
def EventBus.listenerCount (bus : EventBus) (eventName : String) : Nat :=
  match getKV bus.events eventName with
  | some l => l.length
  | none => 0

/-- `EventBus.hasEvent(eventName)` (lines 241-243). -/
def EventBus.hasEvent (bus : EventBus) (eventName : String) : Bool :=
  match getKV bus.events eventName with
  | some l => decide (0 < l.length)
  | none => false

/-- `EventBus.getHistory(limit = 50)` (lines 267-269): `history.slice(-limit)`
is the last `limit` entries (the whole history when `limit = 0`, since
`slice(-0)` is `slice(0)`). -/
def EventBus.getHistory (bus : EventBus) (limit : Nat := 50) : List JEvent :=
  if limit = 0 then bus.history
  else bus.history.drop (bus.history.length - limit)

structure BusStats where
  totalEvents : Nat
  totalListeners : Nat
  wildcardListeners : Nat
  historySize : Nat
  middlewareCount : Nat
  eventStats : List (String × Nat)
deriving Repr

/-- `EventBus.getStats()` (lines 295-312). -/
def EventBus.getStats (bus : EventBus) : BusStats :=
  { totalEvents := bus.events.length
    totalListeners := (bus.events.map (fun p => p.2.length)).sum
    wildcardListeners := bus.wildcardListeners.length
    historySize := bus.history.length
    middlewareCount := bus.middleware.length
    eventStats := bus.events.map (fun p => (p.1, p.2.length)) }

/-- `EventBus.clear()` (lines 317-325). -/
def EventBus.clear (bus : EventBus) : EventBus :=
  { bus with events := [], wildcardListeners := [], history := [] }

/-- `EventBus.destroy()` (lines 330-333). -/
def EventBus.destroy (bus : EventBus) : EventBus :=
  { bus.clear with middleware := [] }

/-- The callback closure built inside `waitFor` (lines 382-385):
`(data, event) => { clearTimeout(timer); resolve({data, event}); }`.
The value passed to `resolve` is taken as the callback's modelled return
value, so the promise resolution is observable in `emit`'s result
list. -/
def waitForCallback (cid : Nat) : Callback :=
  { cid := cid
    run := fun data ev =>
      .ret (.vObj [("data", data),
                   ("event", .vObj [("name", .vStr ev.name),
                                    ("data", ev.data)])]) }

/-- The registration step of `waitFor` (line 387):
`this.once(eventName, listener)`. -/
def EventBus.waitForRegister (bus : EventBus) (eventName : String)
    (cb : Callback) : EventBus × Nat :=
  bus.on eventName cb true 0

/-- The timeout branch of `waitFor` (lines 377-380): the timer fires,
removes the transient subscription by callback identity
(`this.off(eventName, listener)`), and the promise is rejected with the
timeout error. -/
def EventBus.waitForTimeout (bus : EventBus) (eventName : String)
    (cb : Callback) (timeout : Nat) : EventBus × String :=
  (bus.off eventName (.byCallback cb.cid),
   "Event " ++ eventName ++ " timeout after " ++ toString timeout ++ "ms")

/-- The public operations that drive an `EventBus` from construction,
used to quantify over reachable states. -/
inductive BusOp where
  | opOn (eventName : String) (cb : Callback) (once : Bool) (priority : Int)
  | opOff (eventName : String) (sel : OffSelector)
  | opOnAny (cb : Callback)
  | opOffAny (lid : Nat)
  | opEmit (eventName : String) (data : JVal)
  | opUse (mw : JEvent → Option JEvent)
  | opClear
  | opDestroy

def applyBusOp (bus : EventBus) : BusOp → EventBus
  | .opOn n cb o p => (bus.on n cb o p).1
  | .opOff n sel => bus.off n sel
  | .opOnAny cb => (bus.onAny cb).1
  | .opOffAny lid => bus.offAny lid
  | .opEmit n d => (bus.emit n d).1
  | .opUse mw => { bus with middleware := bus.middleware ++ [mw] }
  | .opClear => bus.clear
  | .opDestroy => bus.destroy

/-- The bus reached by running a sequence of operations on a fresh bus. -/
def runBusOps (ops : List BusOp) : EventBus :=
  ops.foldl applyBusOp EventBus.construct

/-- The listener list registered for an event name (empty when absent). -/
def listenersOf (bus : EventBus) (n : String) : List Listener :=
  (getKV bus.events n).getD []

/-- The result `emit` pushes for one per-name listener: its return value,
or the `{ error }` marker when it throws. -/
def listenerResult (pe : JEvent) (l : Listener) : EmitResult :=
  match l.callback.run pe.data pe with
  | .ret v => .ok v
  | .thr e => .errMarker e

/-- The result `emit` pushes for one wildcard listener. -/
def wListenerResult (pe : JEvent) (w : WListener) : EmitResult :=
  match w.callback.run pe.data pe with
  | .ret v => .ok v
  | .thr e => .errMarker e

/-- Whether the listener's callback returns normally on this dispatch. -/
def returnsNormally (pe : JEvent) (l : Listener) : Bool :=
  match l.callback.run pe.data pe with
  | .ret _ => true
  | .thr _ => false

/-- Publish a sequence of events. -/
def emitAll (bus : EventBus) (l : List (String × JVal)) : EventBus :=
  l.foldl (fun b p => (b.emit p.1 p.2).1) bus

/-- History evolution under a sequence of publishes (pure view of
`addToHistory` iterated). -/
def histRun (h : List JEvent) (cap : Nat) : List (String × JVal) → List JEvent
  | [] => h
  | p :: rest =>
    let h2 := h ++ [(⟨p.1, p.2⟩ : JEvent)]
    histRun (if h2.length > cap then h2.tail else h2) cap rest

/-- Stable insertion of a new listener after all listeners of equal or
higher priority — the spec's description "list is kept sorted by
descending priority, ties broken by registration order (stable
insertion)", stated as a direct insertion for comparison with the
push-and-stable-sort the source performs. -/
def specInsert (a : Listener) : List Listener → List Listener
  | [] => [a]
  | x :: xs =>
    if x.priority < a.priority then a :: x :: xs else x :: specInsert a xs

/-- `on` with the stable sort replaced by the spec's stable insertion. -/
def EventBus.specOn (bus : EventBus) (eventName : String) (cb : Callback)
    (once : Bool) (priority : Int) : EventBus × Nat :=
  let lid := bus.nextId
  let listener : Listener :=
    { callback := cb, once := once, priority := priority, lid := lid }
  let cur := (getKV bus.events eventName).getD []
  ({ bus with events := putKV bus.events eventName (specInsert listener cur),
              nextId := lid + 1 }, lid)

/-- One subscribe registration. -/
structure Reg where
  eventName : String
  cb : Callback
  once : Bool
  priority : Int

/-- Run a sequence of registrations on a fresh bus. -/
def registerAll (regs : List Reg) : EventBus :=
  regs.foldl (fun b r => (b.on r.eventName r.cb r.once r.priority).1)
    EventBus.construct

/-- Spec-side counterpart of `registerAll`. -/
def specRegisterAll (regs : List Reg) : EventBus :=
  regs.foldl (fun b r => (b.specOn r.eventName r.cb r.once r.priority).1)
    EventBus.construct

/-- Strict "must precede" order on listeners: strictly higher priority, or
equal priority and earlier registration (smaller id). -/
def lexLT (a b : Listener) : Prop :=
  b.priority < a.priority ∨ (a.priority = b.priority ∧ a.lid < b.lid)

/-- The total preorder refining `prioLE` by registration id on ties. -/
def lexLE (a b : Listener) : Bool :=
  if prioLE a b then (if prioLE b a then decide (a.lid ≤ b.lid) else true)
  else false

/-- Well-formation maintained by the registration interface: every
per-name listener list is strictly sorted by (priority descending,
registration order), with pairwise-distinct ids all below the counter. -/
def GoodBus (bus : EventBus) : Prop :=
  ∀ n, (listenersOf bus n).Pairwise lexLT ∧
    ∀ x ∈ listenersOf bus n, x.lid < bus.nextId

/-- A callback that always returns `v`. -/
def pureCallback (cid : Nat) (v : JVal) : Callback :=
  ⟨cid, fun _ _ => .ret v⟩

/-- A callback that always throws `e`. -/
def throwCallback (cid : Nat) (e : JVal) : Callback :=
  ⟨cid, fun _ _ => .thr e⟩

/-- A bus holding one `once` subscription whose callback always throws
(the state after `once("E", cb)` on a fresh bus). -/
def onceThrowCexBus : EventBus :=
  { events := [("E", [{ callback := throwCallback 7 (.vStr "boom"),
                        once := true, priority := 0, lid := 7 }])],
    history := [], maxHistorySize := 100, wildcardListeners := [],
    middleware := [], nextId := 8 }

/-- A bus holding one normally-returning and one throwing `once`
subscription for `"E"`. -/
def onceMixBus : EventBus :=
  { events := [("E", [{ callback := pureCallback 1 .vNull,
                        once := true, priority := 0, lid := 1 },
                      { callback := throwCallback 2 (.vStr "x"),
                        once := true, priority := 0, lid := 2 }])],
    history := [], maxHistorySize := 100, wildcardListeners := [],
    middleware := [], nextId := 3 }

/-- Fresh store for the spec's deep-merge scenario. -/
def c5Store0 : AppStore := AppStore.construct "2025-01-01" "09:00" none

/-- `setState({ui:{loading:true}})`'s partial state. -/
def c5Upd1 : JVal := .vObj [("ui", .vObj [("loading", .vBool true)])]

/-- `setState({settings:{theme:"dark"}})`'s partial state. -/
def c5Upd2 : JVal := .vObj [("settings", .vObj [("theme", .vStr "dark")])]

/-- The store after the first `setState` of the scenario. -/
def c5Store1 : AppStore :=
  { c5Store0 with stateTree := mergeDeep c5Store0.stateTree c5Upd1 }

/-- The store after both `setState` calls of the scenario. -/
def c5Store2 : AppStore :=
  { c5Store1 with stateTree := mergeDeep c5Store1.stateTree c5Upd2 }

/-! ## Theorems: deep-merge lookup laws -/

/-- Attach-free unfolding of `mergeDeep`, used for all further reasoning. -/
theorem mergeDeep_unfold (t s : JVal) :
    mergeDeep t s =
      .vObj (applyAsgs (JVal.fields t)
        ((JVal.fields s).map (fun p => (p.1, mergeVal t p.1 p.2)))) := by
  have h := List.attach_map_coe (JVal.fields s)
    (fun p => (p.1, mergeVal t p.1 p.2))
  rw [mergeDeep]
  exact congrArg (fun l => JVal.vObj (applyAsgs (JVal.fields t) l)) h

theorem lookupField_cons (k' : String) (v : JVal)
    (rest : List (String × JVal)) (k : String) :
    lookupField ((k', v) :: rest) k =
      if k' = k then some v else lookupField rest k := rfl

theorem lookupField_append (l1 l2 : List (String × JVal)) (k : String) :
    lookupField (l1 ++ l2) k =
      match lookupField l1 k with
      | some v => some v
      | none => lookupField l2 k := by
  induction l1 with
  | nil => simp [lookupField]
  | cons p rest ih =>
    obtain ⟨k1, v1⟩ := p
    by_cases h1 : k1 = k
    · simp [lookupField_cons, h1]
    · simp only [List.cons_append, lookupField_cons, if_neg h1]
      exact ih

theorem lookupField_eq_none_of_not_any (fs : List (String × JVal))
    (k : String) (h : (fs.any (fun p => p.1 = k)) = false) :
    lookupField fs k = none := by
  induction fs with
  | nil => rfl
  | cons p rest ih =>
    obtain ⟨k1, v1⟩ := p
    simp only [List.any_cons, Bool.or_eq_false_iff] at h
    rw [lookupField_cons, if_neg (by simpa using h.1)]
    exact ih h.2

theorem lookupField_map_overwrite_self {k : String} {v : JVal} :
    ∀ (fs : List (String × JVal)),
    (fs.any (fun p => p.1 = k)) = true →
    lookupField (fs.map (fun p => if p.1 = k then (k, v) else p)) k =
      some v := by
  intro fs hmem
  induction fs with
  | nil => simp at hmem
  | cons p rest ih =>
    obtain ⟨k1, v1⟩ := p
    by_cases hp : k1 = k
    · simp [List.map_cons, hp, lookupField_cons]
    · have hmem' : (rest.any fun p => decide (p.1 = k)) = true := by
        simp only [List.any_cons] at hmem
        rcases Bool.or_eq_true_iff.mp hmem with h' | h'
        · exact absurd (of_decide_eq_true h') hp
        · exact h'
      simp only [List.map_cons, if_neg hp, lookupField_cons]
      exact ih hmem'

theorem lookupField_map_overwrite_other {k k2 : String} {v : JVal}
    (h : k2 ≠ k) :
    ∀ (fs : List (String × JVal)),
    lookupField (fs.map (fun p => if p.1 = k then (k, v) else p)) k2 =
      lookupField fs k2 := by
  intro fs
  induction fs with
  | nil => simp
  | cons p rest ih =>
    obtain ⟨k1, v1⟩ := p
    by_cases hp : k1 = k
    · simp only [List.map_cons, if_pos hp, lookupField_cons]
      rw [if_neg (fun h' => h h'.symm), if_neg (by
        subst hp; exact fun h' => h h'.symm)]
      exact ih
    · simp only [List.map_cons, if_neg hp, lookupField_cons]
      by_cases h2 : k1 = k2
      · rw [if_pos h2, if_pos h2]
      · rw [if_neg h2, if_neg h2]
        exact ih

theorem lookupField_setField_self (fs : List (String × JVal)) (k : String)
    (v : JVal) : lookupField (setField fs k v) k = some v := by
  unfold setField
  by_cases ha : (fs.any (fun p => p.1 = k)) = true
  · rw [if_pos ha]
    exact lookupField_map_overwrite_self fs ha
  · rw [if_neg ha, lookupField_append]
    rw [lookupField_eq_none_of_not_any fs k (Bool.not_eq_true _ ▸ ha)]
    simp [lookupField_cons]

theorem lookupField_setField_other (fs : List (String × JVal))
    {k k2 : String} (v : JVal) (h : k2 ≠ k) :
    lookupField (setField fs k v) k2 = lookupField fs k2 := by
  unfold setField
  by_cases ha : (fs.any (fun p => p.1 = k)) = true
  · rw [if_pos ha]
    exact lookupField_map_overwrite_other h fs
  · rw [if_neg ha, lookupField_append]
    cases hf : lookupField fs k2 with
    | some w => simp
    | none =>
      rw [lookupField_cons, if_neg (fun h' => h h'.symm)]
      rfl

theorem lookupField_applyAsgs (asgs : List (String × JVal)) :
    ∀ (base : List (String × JVal)) (k : String),
    lookupField (applyAsgs base asgs) k =
      match lookupLast asgs k with
      | some v => some v
      | none => lookupField base k := by
  induction asgs with
  | nil => intro base k; simp [applyAsgs, lookupLast]
  | cons p rest ih =>
    intro base k
    obtain ⟨k1, v1⟩ := p
    simp only [applyAsgs, lookupLast]
    rw [ih]
    cases hl : lookupLast rest k with
    | some w => simp
    | none =>
      simp only []
      rcases Decidable.em (k1 = k) with h1 | h1
      · subst h1
        rw [if_pos rfl, lookupField_setField_self]
      · rw [if_neg h1, lookupField_setField_other _ _ (fun h' => h1 h'.symm)]

theorem lookupLast_map_mergeVal (t : JVal) (l : List (String × JVal))
    (k : String) :
    lookupLast (l.map (fun p => (p.1, mergeVal t p.1 p.2))) k =
      (lookupLast l k).map (mergeVal t k) := by
  induction l with
  | nil => simp [lookupLast]
  | cons p rest ih =>
    obtain ⟨k1, v1⟩ := p
    simp only [List.map_cons, lookupLast, ih]
    cases hl : lookupLast rest k with
    | some w => simp
    | none =>
      simp only [Option.map_none]
      rcases Decidable.em (k1 = k) with h1 | h1
      · subst h1; simp
      · simp [h1]

/-- Property read on the result of a deep merge: a key assigned by the
source gets the (last) merged value, any other key keeps the target's
value. -/
theorem lookupJ_mergeDeep (t s : JVal) (k : String) :
    lookupJ (mergeDeep t s) k =
      match lookupLast (JVal.fields s) k with
      | some sv => some (mergeVal t k sv)
      | none => lookupJ t k := by
  rw [mergeDeep_unfold]
  show lookupField (applyAsgs (JVal.fields t) _) k = _
  rw [lookupField_applyAsgs, lookupLast_map_mergeVal]
  cases lookupLast (JVal.fields s) k with
  | some sv => simp
  | none => simp [lookupJ]

/-- Deep merge preserves every untouched path of the target tree. -/
theorem lookupPath_mergeDeep_untouched :
    ∀ (p : List String) (t s : JVal), Untouched t s p →
    lookupPath (mergeDeep t s) p = lookupPath t p := by
  intro p
  induction p with
  | nil => intro t s h; exact absurd h (by simp [Untouched])
  | cons k p ih =>
    intro t s h
    simp only [Untouched] at h
    cases hl : lookupLast (JVal.fields s) k with
    | none =>
      simp only [lookupPath, lookupJ_mergeDeep, hl]
    | some sv =>
      rw [hl] at h
      cases ht : lookupJ t k with
      | none => rw [ht] at h; exact absurd h (by simp)
      | some tv =>
        rw [ht] at h
        obtain ⟨h1, h2, h3⟩ := h
        simp only [lookupPath, lookupJ_mergeDeep, hl, ht, mergeVal, h1, h2,
          Bool.and_self, if_true]
        exact ih tv sv h3


/-! ## Theorems: keyed-map laws -/

theorem getKV_cons {β : Type} (k' : String) (v : β) (rest : List (String × β))
    (k : String) :
    getKV ((k', v) :: rest) k = if k' = k then some v else getKV rest k := rfl

theorem getKV_append {β : Type} (l1 l2 : List (String × β)) (k : String) :
    getKV (l1 ++ l2) k =
      match getKV l1 k with
      | some v => some v
      | none => getKV l2 k := by
  induction l1 with
  | nil => simp [getKV]
  | cons p rest ih =>
    obtain ⟨k1, v1⟩ := p
    by_cases h1 : k1 = k
    · simp [getKV_cons, h1]
    · simp only [List.cons_append, getKV_cons, if_neg h1]
      exact ih

theorem getKV_eq_none_of_not_any {β : Type} (l : List (String × β))
    (k : String) (h : (l.any (fun p => p.1 = k)) = false) :
    getKV l k = none := by
  induction l with
  | nil => rfl
  | cons p rest ih =>
    obtain ⟨k1, v1⟩ := p
    simp only [List.any_cons, Bool.or_eq_false_iff] at h
    rw [getKV_cons, if_neg (by simpa using h.1)]
    exact ih h.2

theorem getKV_map_overwrite_self {β : Type} {k : String} {v : β} :
    ∀ (l : List (String × β)), (l.any (fun p => p.1 = k)) = true →
    getKV (l.map (fun p => if p.1 = k then (k, v) else p)) k = some v := by
  intro l hmem
  induction l with
  | nil => simp at hmem
  | cons p rest ih =>
    obtain ⟨k1, v1⟩ := p
    by_cases hp : k1 = k
    · simp [List.map_cons, hp, getKV_cons]
    · have hmem' : (rest.any fun p => decide (p.1 = k)) = true := by
        simp only [List.any_cons] at hmem
        rcases Bool.or_eq_true_iff.mp hmem with h' | h'
        · exact absurd (of_decide_eq_true h') hp
        · exact h'
      simp only [List.map_cons, if_neg hp, getKV_cons]
      exact ih hmem'

theorem getKV_map_overwrite_other {β : Type} {k k2 : String} {v : β}
    (h : k2 ≠ k) :
    ∀ (l : List (String × β)),
    getKV (l.map (fun p => if p.1 = k then (k, v) else p)) k2 =
      getKV l k2 := by
  intro l
  induction l with
  | nil => simp
  | cons p rest ih =>
    obtain ⟨k1, v1⟩ := p
    by_cases hp : k1 = k
    · simp only [List.map_cons, if_pos hp, getKV_cons]
      rw [if_neg (fun h' => h h'.symm), if_neg (by
        subst hp; exact fun h' => h h'.symm)]
      exact ih
    · simp only [List.map_cons, if_neg hp, getKV_cons]
      by_cases h2 : k1 = k2
      · rw [if_pos h2, if_pos h2]
      · rw [if_neg h2, if_neg h2]
        exact ih

theorem getKV_putKV_self {β : Type} (l : List (String × β)) (k : String)
    (v : β) : getKV (putKV l k v) k = some v := by
  unfold putKV
  by_cases ha : (l.any (fun p => p.1 = k)) = true
  · rw [if_pos ha]
    exact getKV_map_overwrite_self l ha
  · rw [if_neg ha, getKV_append]
    rw [getKV_eq_none_of_not_any l k (Bool.not_eq_true _ ▸ ha)]
    simp [getKV_cons]

theorem getKV_putKV_other {β : Type} (l : List (String × β)) {k k2 : String}
    (v : β) (h : k2 ≠ k) : getKV (putKV l k v) k2 = getKV l k2 := by
  unfold putKV
  by_cases ha : (l.any (fun p => p.1 = k)) = true
  · rw [if_pos ha]
    exact getKV_map_overwrite_other h l
  · rw [if_neg ha, getKV_append]
    cases hf : getKV l k2 with
    | some w => simp
    | none =>
      rw [getKV_cons, if_neg (fun h' => h h'.symm)]
      rfl

theorem getKV_delKV_self {β : Type} (l : List (String × β)) (k : String) :
    getKV (delKV l k) k = none := by
  induction l with
  | nil => rfl
  | cons p rest ih =>
    obtain ⟨k1, v1⟩ := p
    unfold delKV
    rw [List.filter_cons]
    by_cases h1 : k1 = k
    · rw [if_neg (by simp [h1])]
      exact ih
    · rw [if_pos (by simp [h1]), getKV_cons, if_neg h1]
      exact ih

theorem getKV_delKV_other {β : Type} (l : List (String × β)) {k k2 : String}
    (h : k2 ≠ k) : getKV (delKV l k) k2 = getKV l k2 := by
  induction l with
  | nil => rfl
  | cons p rest ih =>
    obtain ⟨k1, v1⟩ := p
    unfold delKV
    rw [List.filter_cons]
    by_cases h1 : k1 = k
    · rw [if_neg (by simp [h1]), getKV_cons,
        if_neg (fun hc => h (hc.symm.trans h1))]
      exact ih
    · rw [if_pos (by simp [h1]), getKV_cons, getKV_cons]
      by_cases h2 : k1 = k2
      · rw [if_pos h2, if_pos h2]
      · rw [if_neg h2, if_neg h2]
        exact ih

theorem getKV_none_delKV {β : Type} (l : List (String × β)) (k k2 : String)
    (h : getKV l k = none) : getKV (delKV l k2) k = none := by
  by_cases hk : k = k2
  · subst hk; exact getKV_delKV_self l k
  · rw [getKV_delKV_other l (fun h' => hk h')]
    exact h

/-! ## Theorems: dispatch loop characterization (C2 support) -/

theorem off_fields (bus : EventBus) (n : String) (sel : OffSelector) :
    (bus.off n sel).wildcardListeners = bus.wildcardListeners ∧
    (bus.off n sel).history = bus.history ∧
    (bus.off n sel).middleware = bus.middleware ∧
    (bus.off n sel).maxHistorySize = bus.maxHistorySize ∧
    (bus.off n sel).nextId = bus.nextId := by
  unfold EventBus.off
  cases getKV bus.events n with
  | none => exact ⟨rfl, rfl, rfl, rfl, rfl⟩
  | some ls =>
    cases sel with
    | all => exact ⟨rfl, rfl, rfl, rfl, rfl⟩
    | byId lid =>
      dsimp only
      split
      · exact ⟨rfl, rfl, rfl, rfl, rfl⟩
      · exact ⟨rfl, rfl, rfl, rfl, rfl⟩
    | byCallback cid =>
      dsimp only
      split
      · exact ⟨rfl, rfl, rfl, rfl, rfl⟩
      · exact ⟨rfl, rfl, rfl, rfl, rfl⟩

theorem runListeners_fields (n : String) (pe : JEvent) :
    ∀ (ls : List Listener) (bus : EventBus),
    (runListeners n pe bus ls).1.wildcardListeners = bus.wildcardListeners ∧
    (runListeners n pe bus ls).1.history = bus.history ∧
    (runListeners n pe bus ls).1.middleware = bus.middleware ∧
    (runListeners n pe bus ls).1.maxHistorySize = bus.maxHistorySize := by
  intro ls
  induction ls with
  | nil => intro bus; exact ⟨rfl, rfl, rfl, rfl⟩
  | cons l rest ih =>
    intro bus
    simp only [runListeners]
    cases hr : l.callback.run pe.data pe with
    | ret v =>
      simp only []
      by_cases ho : l.once = true
      · simp only [ho, if_true]
        obtain ⟨w1, w2, w3, w4⟩ := ih (bus.off n (.byId l.lid))
        obtain ⟨o1, o2, o3, o4, _⟩ := off_fields bus n (.byId l.lid)
        exact ⟨w1.trans o1, w2.trans o2, w3.trans o3, w4.trans o4⟩
      · simp only [Bool.not_eq_true] at ho
        simp only [ho, Bool.false_eq_true, if_false]
        exact ih bus
    | thr e => exact ih bus

theorem runListeners_out (n : String) (pe : JEvent) :
    ∀ (ls : List Listener) (bus : EventBus),
    (runListeners n pe bus ls).2.1 = ls.map (listenerResult pe) ∧
    (runListeners n pe bus ls).2.2 = ls.map (fun l => l.lid) := by
  intro ls
  induction ls with
  | nil => intro bus; exact ⟨rfl, rfl⟩
  | cons l rest ih =>
    intro bus
    simp only [runListeners, listenerResult, List.map_cons]
    cases hr : l.callback.run pe.data pe with
    | ret v =>
      simp only []
      constructor
      · exact congrArg (EmitResult.ok v :: ·) (ih _).1
      · exact congrArg (l.lid :: ·) (ih _).2
    | thr e =>
      constructor
      · exact congrArg (EmitResult.errMarker e :: ·) (ih _).1
      · exact congrArg (l.lid :: ·) (ih _).2

/-- The full characterization of `emit`'s result and invocation lists:
every per-name listener contributes exactly one entry (its value or the
`{ error }` marker) in listener order, followed by the wildcard
listeners, regardless of which callbacks throw. -/
theorem emit_results_invoked (bus : EventBus) (n : String) (d : JVal) :
    (bus.emit n d).2.1 =
      (listenersOf bus n).map
        (listenerResult (applyBusMiddleware bus.middleware ⟨n, d⟩)) ++
      bus.wildcardListeners.map
        (wListenerResult (applyBusMiddleware bus.middleware ⟨n, d⟩)) ∧
    (bus.emit n d).2.2 =
      (listenersOf bus n).map (fun l => l.lid) ++
      bus.wildcardListeners.map (fun w => w.lid) := by
  unfold EventBus.emit
  have hevents : (bus.addToHistory ⟨n, d⟩).events = bus.events := rfl
  have hmw : (bus.addToHistory ⟨n, d⟩).middleware = bus.middleware := rfl
  have hwild : (bus.addToHistory ⟨n, d⟩).wildcardListeners =
      bus.wildcardListeners := rfl
  simp only [hevents, hmw, hwild]
  obtain ⟨hw, _, _, _⟩ := runListeners_fields n
    (applyBusMiddleware bus.middleware ⟨n, d⟩)
    ((getKV bus.events n).getD []) (bus.addToHistory ⟨n, d⟩)
  obtain ⟨hr1, hr2⟩ := runListeners_out n
    (applyBusMiddleware bus.middleware ⟨n, d⟩)
    ((getKV bus.events n).getD []) (bus.addToHistory ⟨n, d⟩)
  rw [hwild] at hw
  constructor
  · simp only [runWildcards, hw, hr1]
    rfl
  · simp only [runWildcards, hw, hr2]
    rfl

/-- **C2.** On every publish, a throwing subscriber's error is caught and
recorded as the `{ error }` marker in that subscriber's position; every
remaining per-name subscriber and every wildcard subscriber is still
invoked (the invocation list covers the whole subscriber list), and
`emit` — a total function in this model, mirroring the promise that
always resolves and never rejects — returns the ordered result list with
the markers in place. -/
theorem emit_error_isolation (bus : EventBus) (n : String) (d : JVal) :
    (bus.emit n d).2.1 =
      (listenersOf bus n).map
        (listenerResult (applyBusMiddleware bus.middleware ⟨n, d⟩)) ++
      bus.wildcardListeners.map
        (wListenerResult (applyBusMiddleware bus.middleware ⟨n, d⟩)) ∧
    (bus.emit n d).2.2 =
      (listenersOf bus n).map (fun l => l.lid) ++
      bus.wildcardListeners.map (fun w => w.lid) :=
  emit_results_invoked bus n d

/-! ## Theorems: history ring (C4 support) -/

theorem emit_history (bus : EventBus) (n : String) (d : JVal) :
    (bus.emit n d).1.history = (bus.addToHistory ⟨n, d⟩).history ∧
    (bus.emit n d).1.maxHistorySize = bus.maxHistorySize := by
  unfold EventBus.emit
  obtain ⟨_, h2, _, h4⟩ := runListeners_fields n
    (applyBusMiddleware (bus.addToHistory ⟨n, d⟩).middleware ⟨n, d⟩)
    ((getKV (bus.addToHistory ⟨n, d⟩).events n).getD [])
    (bus.addToHistory ⟨n, d⟩)
  exact ⟨h2, h4⟩

theorem addToHistory_length_le (bus : EventBus) (e : JEvent)
    (h : bus.history.length ≤ bus.maxHistorySize) :
    (bus.addToHistory e).history.length ≤ bus.maxHistorySize := by
  unfold EventBus.addToHistory
  dsimp only
  split
  · rename_i hgt
    simp only [List.length_tail, List.length_append, List.length_cons,
      List.length_nil] at *
    omega
  · rename_i hle2
    simp only [List.length_append, List.length_cons, List.length_nil,
      Nat.not_lt] at *
    omega

theorem applyBusOp_history_le (bus : EventBus) (op : BusOp)
    (h : bus.history.length ≤ bus.maxHistorySize) :
    (applyBusOp bus op).history.length ≤
      (applyBusOp bus op).maxHistorySize := by
  cases op with
  | opOn n cb o p => exact h
  | opOff n sel =>
    obtain ⟨_, h2, _, h4, _⟩ := off_fields bus n sel
    show (bus.off n sel).history.length ≤ (bus.off n sel).maxHistorySize
    rw [h2, h4]; exact h
  | opOnAny cb => exact h
  | opOffAny lid => exact h
  | opEmit n d =>
    obtain ⟨h1, h2⟩ := emit_history bus n d
    rw [show applyBusOp bus (.opEmit n d) = (bus.emit n d).1 from rfl,
      h1, h2]
    exact addToHistory_length_le bus ⟨n, d⟩ h
  | opUse mw => exact h
  | opClear => exact Nat.zero_le _
  | opDestroy => exact Nat.zero_le _

theorem runBusOps_history_le (ops : List BusOp) :
    (runBusOps ops).history.length ≤ (runBusOps ops).maxHistorySize := by
  have aux : ∀ (l : List BusOp) (bus : EventBus),
      bus.history.length ≤ bus.maxHistorySize →
      (l.foldl applyBusOp bus).history.length ≤
        (l.foldl applyBusOp bus).maxHistorySize := by
    intro l
    induction l with
    | nil => intro bus h; exact h
    | cons op rest ih =>
      intro bus h
      exact ih (applyBusOp bus op) (applyBusOp_history_le bus op h)
  exact aux ops EventBus.construct (Nat.zero_le _)

theorem emitAll_history :
    ∀ (l : List (String × JVal)) (bus : EventBus),
    (emitAll bus l).history = histRun bus.history bus.maxHistorySize l ∧
    (emitAll bus l).maxHistorySize = bus.maxHistorySize := by
  intro l
  induction l with
  | nil => intro bus; exact ⟨rfl, rfl⟩
  | cons p rest ih =>
    intro bus
    obtain ⟨e1, e2⟩ := emit_history bus p.1 p.2
    have step : emitAll bus (p :: rest) = emitAll (bus.emit p.1 p.2).1 rest :=
      rfl
    obtain ⟨i1, i2⟩ := ih (bus.emit p.1 p.2).1
    constructor
    · rw [step, i1, e1, e2]
      rfl
    · rw [step, i2, e2]

theorem histRun_drop :
    ∀ (l : List (String × JVal)) (h : List JEvent) (cap : Nat),
    h.length ≤ cap →
    histRun h cap l =
      (h ++ l.map (fun p => (⟨p.1, p.2⟩ : JEvent))).drop
        (h.length + l.length - cap) := by
  intro l
  induction l with
  | nil =>
    intro h cap hle
    simp only [histRun, List.map_nil, List.append_nil, List.length_nil,
      Nat.add_zero, Nat.sub_eq_zero_of_le hle, List.drop_zero]
  | cons p rest ih =>
    intro h cap hle
    simp only [histRun]
    by_cases hgt : (h ++ [(⟨p.1, p.2⟩ : JEvent)]).length > cap
    · rw [if_pos hgt]
      have hlen : h.length = cap := by
        simp only [List.length_append, List.length_cons, List.length_nil] at hgt
        omega
      have htail_len : (h ++ [(⟨p.1, p.2⟩ : JEvent)]).tail.length = cap := by
        rw [List.length_tail, List.length_append]
        simp only [List.length_cons, List.length_nil]
        omega
      rw [ih _ cap (Nat.le_of_eq htail_len), htail_len]
      have hne : h ++ [(⟨p.1, p.2⟩ : JEvent)] ≠ [] := by
        simp
      have hstep : (h ++ [(⟨p.1, p.2⟩ : JEvent)]).tail ++
          rest.map (fun p => (⟨p.1, p.2⟩ : JEvent)) =
          ((h ++ [(⟨p.1, p.2⟩ : JEvent)]) ++
            rest.map (fun p => (⟨p.1, p.2⟩ : JEvent))).tail :=
        (List.tail_append_of_ne_nil hne).symm
      rw [hstep, ← List.drop_one, List.drop_drop, List.map_cons]
      have hassoc : h ++ (⟨p.1, p.2⟩ : JEvent) ::
          rest.map (fun p => (⟨p.1, p.2⟩ : JEvent)) =
          (h ++ [(⟨p.1, p.2⟩ : JEvent)]) ++
            rest.map (fun p => (⟨p.1, p.2⟩ : JEvent)) := by
        rw [List.append_assoc]; rfl
      rw [hassoc]
      congr 1
      simp only [List.length_cons]
      omega
    · rw [if_neg hgt]
      have hle2 : (h ++ [(⟨p.1, p.2⟩ : JEvent)]).length ≤ cap := by
        omega
      rw [ih _ cap hle2]
      have : h ++ (⟨p.1, p.2⟩ : JEvent) ::
          rest.map (fun p => (⟨p.1, p.2⟩ : JEvent)) =
          (h ++ [(⟨p.1, p.2⟩ : JEvent)]) ++
            rest.map (fun p => (⟨p.1, p.2⟩ : JEvent)) := by
        rw [List.append_assoc]; rfl
      rw [List.map_cons, this]
      congr 1
      rw [List.length_append, List.length_cons]
      simp only [List.length_cons, List.length_nil]
      omega

/-- **C4.** At every state reachable through the public operations, the
history holds at most `maxHistorySize` events; and publishing
capacity + 1 events on a fresh bus (default capacity 100) evicts the
first-published event FIFO: the resulting history is exactly the last
100 events, the first-published event is absent, and the newest is
present. -/
theorem history_capacity :
    (∀ ops : List BusOp,
      (runBusOps ops).history.length ≤ (runBusOps ops).maxHistorySize) ∧
    (∀ (e : String × JVal) (rest : List (String × JVal)),
      rest.length = EventBus.construct.maxHistorySize →
      (⟨e.1, e.2⟩ : JEvent) ∉ rest.map (fun p => (⟨p.1, p.2⟩ : JEvent)) →
      (emitAll EventBus.construct (e :: rest)).history =
          rest.map (fun p => (⟨p.1, p.2⟩ : JEvent)) ∧
        (⟨e.1, e.2⟩ : JEvent) ∉
          (emitAll EventBus.construct (e :: rest)).history ∧
        ∀ ev', ((e :: rest).map
            (fun p => (⟨p.1, p.2⟩ : JEvent))).getLast? = some ev' →
          ev' ∈ (emitAll EventBus.construct (e :: rest)).history) := by
  constructor
  · exact runBusOps_history_le
  · intro e rest hlen hnotin
    have hcap : EventBus.construct.maxHistorySize = 100 := rfl
    have hh := (emitAll_history (e :: rest) EventBus.construct).1
    rw [show EventBus.construct.history = [] from rfl, hcap,
      histRun_drop (e :: rest) [] 100 (Nat.zero_le _)] at hh
    simp only [List.nil_append, List.length_nil, Nat.zero_add,
      List.length_cons, hlen, hcap] at hh
    have hdrop : (100 + 1 - 100) = 1 := by omega
    rw [hdrop, List.map_cons, List.drop_one, List.tail_cons] at hh
    refine ⟨hh, ?_, ?_⟩
    · rw [hh]; exact hnotin
    · intro ev' hlast
      have hmem := List.mem_of_getLast?_eq_some hlast
      rw [List.map_cons, List.mem_cons] at hmem
      rcases hmem with hmem | hmem
      · subst hmem
        exfalso
        have hne : rest.map (fun p => (⟨p.1, p.2⟩ : JEvent)) ≠ [] := by
          intro hc
          have := congrArg List.length hc
          simp only [List.length_map, hlen, hcap, List.length_nil] at this
          omega
        rw [List.map_cons, List.getLast?_cons] at hlast
        cases hl2 : (rest.map (fun p => (⟨p.1, p.2⟩ : JEvent))).getLast? with
        | none =>
          exact hne (by
            cases hrm : rest.map (fun p => (⟨p.1, p.2⟩ : JEvent)) with
            | nil => rfl
            | cons x xs =>
              rw [hrm] at hl2
              rw [List.getLast?_cons] at hl2
              cases hxs : xs.getLast? with
              | none =>
                rw [hxs] at hl2
                simp at hl2
              | some y => rw [hxs] at hl2; simp at hl2)
        | some y =>
          rw [hl2] at hlast
          simp only [Option.getD_some, Option.some.injEq] at hlast
          subst hlast
          exact hnotin (List.mem_of_getLast?_eq_some hl2)
      · rw [hh]; exact hmem

/-- Witness for C4's capacity scenario: 101 concrete publishes on a fresh
bus leave a history of the last 100, without the first event. -/
theorem history_capacity_witness :
    (List.replicate 100 (("b" : String), JVal.vNull)).length =
        EventBus.construct.maxHistorySize ∧
    (emitAll EventBus.construct
        (("a", JVal.vNull) :: List.replicate 100 ("b", JVal.vNull))).history =
      (List.replicate 100 (("b" : String), JVal.vNull)).map
        (fun p => (⟨p.1, p.2⟩ : JEvent)) ∧
    (⟨"a", JVal.vNull⟩ : JEvent) ∉
      (emitAll EventBus.construct
        (("a", JVal.vNull) :: List.replicate 100 ("b", JVal.vNull))).history := by
  have h1 : (List.replicate 100 (("b" : String), JVal.vNull)).length =
      EventBus.construct.maxHistorySize := by
    simp [EventBus.construct]
  have h2 : (⟨"a", JVal.vNull⟩ : JEvent) ∉
      (List.replicate 100 (("b" : String), JVal.vNull)).map
        (fun p => (⟨p.1, p.2⟩ : JEvent)) := by
    simp only [List.map_replicate, List.mem_replicate]
    intro hc
    have := hc.2
    simp at this
  have hmain := history_capacity.2 ("a", JVal.vNull)
    (List.replicate 100 ("b", JVal.vNull)) h1 h2
  exact ⟨h1, hmain.1, hmain.2.1⟩

/-! ## Theorems: once-removal during dispatch (C3) -/

theorem listenersOf_off_byId (bus : EventBus) (n : String) (lid : Nat) :
    listenersOf (bus.off n (.byId lid)) n =
      (listenersOf bus n).eraseP (fun l => l.lid == lid) := by
  unfold EventBus.off listenersOf
  cases hg : getKV bus.events n with
  | none => simp [hg]
  | some ls =>
    dsimp only
    split
    · rename_i hlen
      rw [getKV_delKV_self]
      simp only [Option.getD_none, Option.getD_some]
      exact (List.length_eq_zero.mp hlen).symm
    · rw [getKV_putKV_self]
      rfl

theorem runListeners_listenersOf (n : String) (pe : JEvent) :
    ∀ (ls : List Listener) (bus : EventBus),
    listenersOf (runListeners n pe bus ls).1 n =
      ls.foldl
        (fun cur l =>
          if l.once && returnsNormally pe l then
            cur.eraseP (fun x => x.lid == l.lid)
          else cur)
        (listenersOf bus n) := by
  intro ls
  induction ls with
  | nil => intro bus; rfl
  | cons l rest ih =>
    intro bus
    simp only [runListeners, List.foldl_cons]
    cases hr : l.callback.run pe.data pe with
    | ret v =>
      have hrn : returnsNormally pe l = true := by
        simp [returnsNormally, hr]
      simp only [hrn, Bool.and_true]
      by_cases ho : l.once = true
      · simp only [ho, if_true]
        rw [ih (bus.off n (.byId l.lid)), listenersOf_off_byId]
      · have ho' : l.once = false := by simpa using ho
        simp only [ho', Bool.false_eq_true, if_false]
        exact ih bus
    | thr e =>
      have hrn : returnsNormally pe l = false := by
        simp [returnsNormally, hr]
      simp only [hrn, Bool.and_false, Bool.false_eq_true, if_false]
      exact ih bus

theorem foldl_eraseOnce_filter (rm : Listener → Bool) :
    ∀ (ls kept : List Listener),
    ((kept ++ ls).map (fun l => l.lid)).Nodup →
    ls.foldl
      (fun cur l =>
        if rm l then cur.eraseP (fun x => x.lid == l.lid) else cur)
      (kept ++ ls)
    = kept ++ ls.filter (fun l => !rm l) := by
  intro ls
  induction ls with
  | nil => intro kept h; simp
  | cons l rest ih =>
    intro kept h
    have hdis : ∀ b ∈ kept, ¬((fun x => x.lid == l.lid) b = true) := by
      intro b hb hc
      simp only [beq_iff_eq] at hc
      rw [List.map_append, List.nodup_append] at h
      have hbl : b.lid ∈ kept.map (fun l => l.lid) :=
        List.mem_map_of_mem _ hb
      have hll : l.lid ∈ (l :: rest).map (fun l => l.lid) := by
        simp
      exact (h.2.2 hbl) (hc ▸ hll)
    simp only [List.foldl_cons]
    by_cases hrm : rm l = true
    · rw [if_pos hrm, List.eraseP_append_right _ hdis,
        List.eraseP_cons_of_pos (by simp)]
      have hsub0 : List.Sublist (kept ++ rest) (kept ++ l :: rest) :=
        List.Sublist.append_left (List.sublist_cons_self l rest) kept
      have hnd : ((kept ++ rest).map (fun l => l.lid)).Nodup :=
        List.Pairwise.sublist (List.Sublist.map _ hsub0) h
      rw [ih kept hnd, List.filter_cons]
      simp only [hrm, Bool.not_true, Bool.false_eq_true, if_false]
    · have hrm' : rm l = false := by simpa using hrm
      rw [if_neg hrm]
      have hassoc : kept ++ l :: rest = (kept ++ [l]) ++ rest := by
        simp
      rw [hassoc, ih (kept ++ [l]) (by rw [← hassoc]; exact h),
        List.filter_cons]
      simp only [hrm', Bool.not_false, if_true, List.append_assoc,
        List.singleton_append]

/-- **C3 (amended).** During a publish, a `once` subscription whose
callback returns normally is removed from the event's live listener list
inside the dispatch loop (before the next subscription of the same
dispatch runs), so it is never invoked by a later publish; but a `once`
subscription whose callback throws is NOT removed — the `off` call sits
inside the `try` block and is skipped by the catch — so after the
dispatch the event's listener list is exactly the original list minus
the normally-returning `once` listeners. -/
theorem emit_once_removal (bus : EventBus) (n : String) (d : JVal)
    (hnodup : ((listenersOf bus n).map (fun l => l.lid)).Nodup) :
    listenersOf (bus.emit n d).1 n =
      (listenersOf bus n).filter
        (fun l => !(l.once &&
          returnsNormally (applyBusMiddleware bus.middleware ⟨n, d⟩) l)) := by
  unfold EventBus.emit
  dsimp only
  have h1 : (getKV (bus.addToHistory ⟨n, d⟩).events n).getD [] =
      listenersOf bus n := rfl
  have h2 : (bus.addToHistory ⟨n, d⟩).middleware = bus.middleware := rfl
  rw [h1, h2, runListeners_listenersOf]
  have h3 : listenersOf (bus.addToHistory ⟨n, d⟩) n = listenersOf bus n :=
    rfl
  rw [h3]
  have := foldl_eraseOnce_filter
    (fun l => l.once &&
      returnsNormally (applyBusMiddleware bus.middleware ⟨n, d⟩) l)
    (listenersOf bus n) [] (by simpa using hnodup)
  simpa using this

/-- Witness for C3 (amended): on a bus with a normally-returning and a
throwing `once` subscription, the dispatch removes exactly the
normally-returning one. -/
theorem emit_once_removal_witness :
    ((listenersOf onceMixBus "E").map (fun l => l.lid)).Nodup ∧
    listenersOf (onceMixBus.emit "E" .vNull).1 "E" =
      (listenersOf onceMixBus "E").filter
        (fun l => !(l.once && returnsNormally
          (applyBusMiddleware onceMixBus.middleware ⟨"E", .vNull⟩) l)) :=
  ⟨by decide, emit_once_removal onceMixBus "E" .vNull (by decide)⟩

/-- **C3 (counterexample).** The claim "removed whether the callback
returns normally or throws, so it can never be invoked by a later
publish" is false: a `once` subscription whose callback throws is still
registered after the publish (count 1, not 0), and a second publish
invokes it again (invocation list `[7]`). -/
theorem once_throwing_not_removed_cex :
    ((onceThrowCexBus.emit "E" .vNull).1.listenerCount "E" = 1) ∧
    (((onceThrowCexBus.emit "E" .vNull).1.emit "E" .vNull).2.2 = [7]) := by
  constructor
  · rfl
  · rfl

/-! ## Theorems: publishing without subscribers (C10) -/

theorem listenersOf_eq_nil_of_hasEvent_false (bus : EventBus) (n : String)
    (h : bus.hasEvent n = false) : listenersOf bus n = [] := by
  unfold EventBus.hasEvent at h
  unfold listenersOf
  cases hg : getKV bus.events n with
  | none => rfl
  | some l =>
    rw [hg] at h
    simp only [decide_eq_false_iff_not, Nat.not_lt, Nat.le_zero] at h
    simp only [Option.getD_some]
    exact List.length_eq_zero.mp h

theorem mem_drop_of_getLast? :
    ∀ (l : List α) (a : α) (k : Nat),
    l.getLast? = some a → k < l.length → a ∈ l.drop k := by
  intro l
  induction l with
  | nil => intro a k h hk; simp at h
  | cons x xs ih =>
    intro a k h hk
    cases k with
    | zero =>
      rw [List.drop_zero]
      exact List.mem_of_getLast?_eq_some h
    | succ k =>
      rw [List.drop_succ_cons]
      cases xs with
      | nil =>
        simp only [List.length_cons, List.length_nil] at hk
        omega
      | cons b l2 =>
        rw [List.getLast?_cons_cons] at h
        apply ih _ _ h
        simp only [List.length_cons] at hk
        simp only [List.length_cons]
        omega

theorem getStats_historySize (bus : EventBus) :
    bus.getStats.historySize = bus.history.length := rfl

theorem addToHistory_getLast? (bus : EventBus) (e : JEvent)
    (hcap : 0 < bus.maxHistorySize) :
    (bus.addToHistory e).history.getLast? = some e := by
  unfold EventBus.addToHistory
  dsimp only
  split
  · rename_i hgt
    have hne : bus.history ≠ [] := by
      intro hc
      rw [hc] at hgt
      simp only [List.nil_append, List.length_cons, List.length_nil] at hgt
      omega
    rw [List.tail_append_of_ne_nil hne, List.getLast?_concat]
  · rw [List.getLast?_concat]

theorem addToHistory_length (bus : EventBus) (e : JEvent) :
    (bus.addToHistory e).history.length =
      (if bus.history.length + 1 > bus.maxHistorySize
       then bus.history.length else bus.history.length + 1) := by
  unfold EventBus.addToHistory
  dsimp only
  split
  · rename_i hgt
    simp only [List.length_append, List.length_cons, List.length_nil] at hgt
    rw [if_pos hgt]
    simp only [List.length_tail, List.length_append, List.length_cons,
      List.length_nil]
    omega
  · rename_i hle
    simp only [List.length_append, List.length_cons, List.length_nil,
      Nat.not_lt] at hle
    rw [if_neg (by omega)]
    simp only [List.length_append, List.length_cons, List.length_nil]

/-- **C10 (amended).** Publishing an event name with no per-name and no
wildcard subscribers resolves to an empty result list, and the event is
nevertheless appended to the history: it appears in `getHistory` (default
limit 50), and the history size reported by `stats()` grows by one —
except when the history is already at capacity, where FIFO eviction keeps
the reported size unchanged at the maximum. -/
theorem emit_no_subscribers (bus : EventBus) (n : String) (d : JVal)
    (hno : bus.hasEvent n = false) (hwild : bus.wildcardListeners = [])
    (hcap : 0 < bus.maxHistorySize) :
    (bus.emit n d).2.1 = [] ∧
    (⟨n, d⟩ : JEvent) ∈ (bus.emit n d).1.getHistory 50 ∧
    (bus.emit n d).1.getStats.historySize =
      (if bus.history.length + 1 > bus.maxHistorySize
       then bus.history.length else bus.history.length + 1) := by
  refine ⟨?_, ?_, ?_⟩
  · rw [(emit_results_invoked bus n d).1,
      listenersOf_eq_nil_of_hasEvent_false bus n hno, hwild]
    simp
  · have hh := (emit_history bus n d).1
    unfold EventBus.getHistory
    rw [if_neg (by omega : ¬(50 : Nat) = 0), hh]
    apply mem_drop_of_getLast? _ _ _ (addToHistory_getLast? bus ⟨n, d⟩ hcap)
    rw [addToHistory_length]
    have h0 : 0 < (if bus.history.length + 1 > bus.maxHistorySize
        then bus.history.length else bus.history.length + 1) := by
      split
      · rename_i hgt; omega
      · omega
    omega
  · have hh := (emit_history bus n d).1
    rw [getStats_historySize, hh, addToHistory_length]

/-- Witness for C10 (amended) at a fresh bus and concrete event. -/
theorem emit_no_subscribers_witness :
    EventBus.construct.hasEvent "ping" = false ∧
    EventBus.construct.wildcardListeners = [] ∧
    0 < EventBus.construct.maxHistorySize ∧
    (EventBus.construct.emit "ping" (.vNum 3)).2.1 = [] ∧
    (⟨"ping", .vNum 3⟩ : JEvent) ∈
      (EventBus.construct.emit "ping" (.vNum 3)).1.getHistory 50 ∧
    (EventBus.construct.emit "ping" (.vNum 3)).1.getStats.historySize =
      (if EventBus.construct.history.length + 1 >
          EventBus.construct.maxHistorySize
       then EventBus.construct.history.length
       else EventBus.construct.history.length + 1) := by
  have h := emit_no_subscribers EventBus.construct "ping" (.vNum 3)
    (by rfl) (by rfl) (by decide)
  exact ⟨rfl, rfl, by decide, h.1, h.2.1, h.2.2⟩

/-- **C10 (counterexample).** At capacity the reported history size does
not increase: after 100 publishes on a fresh bus (capacity 100), one more
publish leaves `stats().historySize` at 100, equal to its value before
that publish. -/
theorem emit_at_capacity_stats_cex :
    ((emitAll EventBus.construct
        (List.replicate 100 (("b" : String), JVal.vNull))).emit "c"
        JVal.vNull).1.getStats.historySize = 100 ∧
    (emitAll EventBus.construct
        (List.replicate 100 (("b" : String),
          JVal.vNull))).getStats.historySize = 100 := by
  have hmax : (emitAll EventBus.construct
      (List.replicate 100 (("b" : String), JVal.vNull))).maxHistorySize =
      100 :=
    (emitAll_history _ _).2
  have h1 := (emitAll_history
    (List.replicate 100 (("b" : String), JVal.vNull)) EventBus.construct).1
  rw [show EventBus.construct.history = [] from rfl,
    show EventBus.construct.maxHistorySize = 100 from rfl,
    histRun_drop _ [] 100 (Nat.zero_le _)] at h1
  simp only [List.nil_append, List.length_nil, Nat.zero_add,
    List.length_replicate, Nat.sub_self, List.drop_zero] at h1
  have hlen : (emitAll EventBus.construct
      (List.replicate 100 (("b" : String), JVal.vNull))).history.length =
      100 := by
    rw [h1]
    simp
  constructor
  · rw [getStats_historySize,
      (emit_history _ "c" JVal.vNull).1, addToHistory_length, hlen, hmax]
    rw [if_pos (by omega)]
  · rw [getStats_historySize]
    exact hlen

/-! ## Theorems: the Store (C9, C8, C6, C5) -/

/-- **C9.** Evaluation of the code at the claim's failing input: after
`destroy()` the store still accepts `setState` — there is no disposed
flag and no raise.  The call returns normally (`.ok`), merges the partial
state into the surviving state tree, and notifies the (now empty)
listener list; the claim's required loud failure never happens. -/
theorem setState_after_destroy_accepted (st : AppStore) (upd : JVal) :
    (st.destroy).setState upd =
      .ok ({ st.destroy with stateTree := mergeDeep st.stateTree upd },
           []) := rfl

theorem foldl_removeCache_timers :
    ∀ (l : List (String × Nat)) (st : AppStore),
    (l.foldl (fun acc p => acc.removeCache p.1) st).timers = st.timers := by
  intro l
  induction l with
  | nil => intro st; rfl
  | cons q rest ih => intro st; exact ih _

theorem foldl_removeCache_cacheTTL :
    ∀ (l : List (String × Nat)) (st : AppStore),
    (l.foldl (fun acc p => acc.removeCache p.1) st).cacheTTL =
      st.cacheTTL := by
  intro l
  induction l with
  | nil => intro st; rfl
  | cons q rest ih => intro st; exact ih _

theorem runTimers_timers (st : AppStore) (now : Nat) :
    (st.runTimers now).timers =
      st.timers.filter (fun p => ¬ p.2 ≤ now) := by
  unfold AppStore.runTimers
  rw [foldl_removeCache_timers]

theorem runTimers_cacheTTL (st : AppStore) (now : Nat) :
    (st.runTimers now).cacheTTL = st.cacheTTL := by
  unfold AppStore.runTimers
  rw [foldl_removeCache_cacheTTL]

theorem runTimers_no_due (st : AppStore) (now : Nat)
    (h : ∀ p ∈ st.timers, ¬ p.2 ≤ now) : st.runTimers now = st := by
  unfold AppStore.runTimers
  have h1 : st.timers.filter (fun p => p.2 ≤ now) = [] := by
    simp only [List.filter_eq_nil_iff, decide_eq_true_eq]
    exact h
  have h2 : st.timers.filter (fun p => ¬ p.2 ≤ now) = st.timers := by
    rw [List.filter_eq_self]
    intro a ha
    simpa using h a ha
  rw [h1, h2]
  rfl

theorem foldl_removeCache_none :
    ∀ (l : List (String × Nat)) (st : AppStore) (k : String),
    getKV st.cache k = none →
    getKV ((l.foldl (fun acc p => acc.removeCache p.1) st).cache) k =
      none := by
  intro l
  induction l with
  | nil => intro st k h; exact h
  | cons q rest ih =>
    intro st k h
    exact ih _ k (getKV_none_delKV _ _ _ h)

theorem foldl_removeCache_hit :
    ∀ (l : List (String × Nat)) (st : AppStore) (k : String),
    (∃ p ∈ l, p.1 = k) →
    getKV ((l.foldl (fun acc p => acc.removeCache p.1) st).cache) k =
      none := by
  intro l
  induction l with
  | nil => intro st k h; exact absurd h (by simp)
  | cons q rest ih =>
    intro st k h
    by_cases hq : q.1 = k
    · show getKV ((rest.foldl (fun acc p => acc.removeCache p.1)
        (st.removeCache q.1)).cache) k = none
      apply foldl_removeCache_none
      rw [hq]
      exact getKV_delKV_self _ _
    · rcases h with ⟨p, hp, hpk⟩
      rcases List.mem_cons.mp hp with hp | hp
      · exact absurd (hp ▸ hpk) hq
      · exact ih _ k ⟨p, hp, hpk⟩

theorem setCache_components (st : AppStore) (k : String) (v : JVal)
    (ttl now : Nat) (h : ttl ≠ 0) :
    (st.setCache k v (some ttl) now).cache = putKV st.cache k v ∧
    (st.setCache k v (some ttl) now).cacheTimestamps =
      putKV st.cacheTimestamps k now ∧
    (st.setCache k v (some ttl) now).cacheTTL = st.cacheTTL ∧
    (st.setCache k v (some ttl) now).timers =
      st.timers ++ [(k, now + ttl)] := by
  unfold AppStore.setCache
  dsimp only
  rw [if_pos h]
  exact ⟨rfl, rfl, rfl, rfl⟩

theorem getCache_hit_default_ttl (st : AppStore) (k : String) (v : JVal)
    (ts : Nat) (f : Option (Except JVal JVal)) (now : Nat)
    (hv : getKV st.cache k = some v)
    (hts : getKV st.cacheTimestamps k = some ts) (hts0 : ts ≠ 0)
    (hlt : now - ts < st.cacheTTL) :
    st.getCache k f none now = .ok (v, st) := by
  unfold AppStore.getCache
  rw [hv, hts]
  dsimp only
  rw [if_pos hts0, if_pos hlt]

theorem getCache_miss_no_fetcher (st : AppStore) (k : String) (now : Nat)
    (h : getKV st.cache k = none) :
    st.getCache k none none now = .ok (.vNull, st) := by
  unfold AppStore.getCache
  rw [h]

theorem getCache_miss_fetcher_ok (st : AppStore) (k : String) (now : Nat)
    (data : JVal) (h : getKV st.cache k = none) :
    st.getCache k (some (.ok data)) none now =
      .ok (data, st.setCache k data (some st.cacheTTL) now) := by
  unfold AppStore.getCache
  rw [h]

/-- **C8 (amended).** After `setCache(k, v, ttl)` at time `t₁` (positive
TTL, nonzero clock, positive store default TTL), `getCache(k)` at the
same time returns `v`.  Once more than `ttl` ms have elapsed the eviction
scheduled by `setCache` has fired, so `getCache(k)` with no fetcher
returns `null` (the source's final `return null` — not `undefined`), and
with a fetcher it awaits it, stores its result under the key, and
returns it. -/
theorem cache_ttl_expiry (st : AppStore) (k : String) (v : JVal)
    (ttl t1 t2 : Nat) (data : JVal)
    (httl : 0 < ttl) (ht1 : 0 < t1) (hdef : 0 < st.cacheTTL)
    (helapsed : t1 + ttl ≤ t2) :
    (st.setCacheAt k v (some ttl) t1).getCacheAt k none none t1 =
      .ok (v, st.setCacheAt k v (some ttl) t1) ∧
    ((st.setCacheAt k v (some ttl) t1).getCacheAt k none none
        t2).map Prod.fst = .ok JVal.vNull ∧
    (∃ st2, (st.setCacheAt k v (some ttl) t1).getCacheAt k
        (some (.ok data)) none t2 = .ok (data, st2) ∧
      getKV st2.cache k = some data) := by
  have hne : ttl ≠ 0 := by omega
  obtain ⟨hc1, hc2, hc3, hc4⟩ :=
    setCache_components (st.runTimers t1) k v ttl t1 hne
  have hs1 : st.setCacheAt k v (some ttl) t1 =
      (st.runTimers t1).setCache k v (some ttl) t1 := rfl
  have hnodue : ∀ p ∈ (st.setCacheAt k v (some ttl) t1).timers,
      ¬ p.2 ≤ t1 := by
    rw [hs1, hc4]
    intro p hp
    rcases List.mem_append.mp hp with hp | hp
    · rw [runTimers_timers] at hp
      have := List.of_mem_filter hp
      simpa using this
    · rcases List.mem_singleton.mp hp with rfl
      simp only
      omega
  have hkdead : getKV ((st.setCacheAt k v (some ttl) t1).runTimers
      t2).cache k = none := by
    unfold AppStore.runTimers
    apply foldl_removeCache_hit
    refine ⟨(k, t1 + ttl), ?_, rfl⟩
    apply List.mem_filter.mpr
    refine ⟨?_, by simpa using helapsed⟩
    rw [hs1, hc4]
    exact List.mem_append.mpr (Or.inr (List.mem_singleton.mpr rfl))
  refine ⟨?_, ?_, ?_⟩
  · unfold AppStore.getCacheAt
    rw [runTimers_no_due _ t1 hnodue, hs1]
    apply getCache_hit_default_ttl
    · rw [hc1]
      exact getKV_putKV_self _ _ _
    · rw [hc2]
      exact getKV_putKV_self _ _ _
    · omega
    · rw [hc3, runTimers_cacheTTL]
      omega
  · unfold AppStore.getCacheAt
    rw [getCache_miss_no_fetcher _ _ _ hkdead]
    rfl
  · unfold AppStore.getCacheAt
    rw [getCache_miss_fetcher_ok _ _ _ data hkdead]
    refine ⟨_, rfl, ?_⟩
    by_cases hz : ((st.setCacheAt k v (some ttl) t1).runTimers
        t2).cacheTTL = 0
    · unfold AppStore.setCache
      dsimp only
      rw [if_neg (by simpa using hz)]
      exact getKV_putKV_self _ _ _
    · obtain ⟨hd1, _, _, _⟩ := setCache_components
        ((st.setCacheAt k v (some ttl) t1).runTimers t2) k data _ t2 hz
      rw [hd1]
      exact getKV_putKV_self _ _ _

/-- Witness for C8 (amended) at concrete times and values. -/
theorem cache_ttl_expiry_witness :
    (0 < 20 ∧ 0 < 5 ∧
      0 < (AppStore.construct "2025-01-01" "09:00" none).cacheTTL ∧
      5 + 20 ≤ 30) ∧
    ((AppStore.construct "2025-01-01" "09:00" none).setCacheAt "k"
        (.vNum 42) (some 20) 5).getCacheAt "k" none none 5 =
      .ok (.vNum 42,
        (AppStore.construct "2025-01-01" "09:00" none).setCacheAt "k"
          (.vNum 42) (some 20) 5) ∧
    (((AppStore.construct "2025-01-01" "09:00" none).setCacheAt "k"
        (.vNum 42) (some 20) 5).getCacheAt "k" none none 30).map
      Prod.fst = .ok JVal.vNull := by
  have h := cache_ttl_expiry (AppStore.construct "2025-01-01" "09:00" none)
    "k" (.vNum 42) 20 5 30 (.vNum 7)
    (by decide) (by decide) (by decide) (by decide)
  exact ⟨⟨by decide, by decide, by decide, by decide⟩, h.1, h.2.1⟩

/-- **C8 (counterexample).** In the spec's own scenario —
`setCache("k", v, 20)` then `getCache("k")` at 25+ ms — the source
returns `null`, not `undefined`: the claim's "returns undefined" is wrong
on the `null`/`undefined` distinction. -/
theorem getCache_expired_null_cex :
    (((AppStore.construct "2025-01-01" "09:00" none).setCacheAt "k"
        (.vNum 42) (some 20) 5).getCacheAt "k" none none 30).map
      Prod.fst = .ok JVal.vNull ∧
    JVal.vNull ≠ JVal.vUndefined := by
  constructor
  · rfl
  · intro h
    exact JVal.noConfusion h

/-- **C6.** Evaluation of the code at the claim's failing input: arrays
are `instanceof Object`, so an incoming array merged over an existing
array is combined key-wise into a plain object (`{...[1,2]}` with index
keys), not substituted wholesale — `mergeDeep({a:[1,2]}, {a:[9]})`
stores `{0:9, 1:2}` under `"a"`, not the incoming array `[9]`. -/
theorem mergeDeep_array_keywise_cex :
    mergeDeep (.vObj [("a", .vArr [.vNum 1, .vNum 2])])
        (.vObj [("a", .vArr [.vNum 9])]) =
      .vObj [("a", .vObj [("0", .vNum 9), ("1", .vNum 2)])] ∧
    lookupJ (mergeDeep (.vObj [("a", .vArr [.vNum 1, .vNum 2])])
        (.vObj [("a", .vArr [.vNum 9])])) "a" ≠
      some (.vArr [.vNum 9]) := by
  have h1 : mergeDeep (.vArr [.vNum 1, .vNum 2]) (.vArr [.vNum 9]) =
      .vObj [("0", .vNum 9), ("1", .vNum 2)] := by
    rw [mergeDeep_unfold]
    rfl
  have h2 : mergeDeep (.vObj [("a", .vArr [.vNum 1, .vNum 2])])
      (.vObj [("a", .vArr [.vNum 9])]) =
      .vObj [("a", mergeDeep (.vArr [.vNum 1, .vNum 2])
        (.vArr [.vNum 9]))] := by
    rw [mergeDeep_unfold]
    rfl
  rw [h2, h1]
  constructor
  · rfl
  · intro hc
    have := Option.some.inj hc
    have h3 : lookupJ (JVal.vObj [("a", .vObj [("0", .vNum 9),
        ("1", .vNum 2)])]) "a" = some (.vObj [("0", .vNum 9),
        ("1", .vNum 2)]) := rfl
    rw [h3] at hc
    exact JVal.noConfusion (Option.some.inj hc)

/-- **C5.** `setState`'s deep merge preserves every dot-path of the
existing state tree that the (middleware-transformed) partial state does
not mention: `setState` returns normally and the path reads the same
value afterwards. -/
theorem setState_frame (st : AppStore) (upd : JVal) (path : List String)
    (h : Untouched st.stateTree (applyStoreMiddleware st upd) path) :
    ∃ st2 notified, st.setState upd = .ok (st2, notified) ∧
      lookupPath st2.stateTree path = lookupPath st.stateTree path :=
  ⟨_, _, rfl, lookupPath_mergeDeep_untouched path _ _ h⟩

/-- Witness for C5 at the spec's own scenario:
`setState({ui:{loading:true}})` then `setState({settings:{theme:"dark"}})`
leaves `ui.loading === true` and the pre-existing `ui.notifications`
array in place. -/
theorem setState_frame_witness :
    c5Store0.setState c5Upd1 = .ok (c5Store1, []) ∧
    Untouched c5Store1.stateTree (applyStoreMiddleware c5Store1 c5Upd2)
      ["ui", "loading"] ∧
    Untouched c5Store1.stateTree (applyStoreMiddleware c5Store1 c5Upd2)
      ["ui", "notifications"] ∧
    ∃ st2 notified, c5Store1.setState c5Upd2 = .ok (st2, notified) ∧
      lookupPath st2.stateTree ["ui", "loading"] = some (.vBool true) ∧
      lookupPath st2.stateTree ["ui", "notifications"] =
        some (.vArr []) := by
  have hu1 : lookupJ c5Store1.stateTree "ui" =
      some (mergeDeep defaultUi (.vObj [("loading", .vBool true)])) := by
    show lookupJ (mergeDeep c5Store0.stateTree c5Upd1) "ui" = _
    rw [lookupJ_mergeDeep]
    rfl
  have hload : lookupJ (mergeDeep defaultUi
      (.vObj [("loading", .vBool true)])) "loading" =
      some (.vBool true) := by
    rw [lookupJ_mergeDeep]
    rfl
  have hnotif : lookupJ (mergeDeep defaultUi
      (.vObj [("loading", .vBool true)])) "notifications" =
      some (.vArr []) := by
    rw [lookupJ_mergeDeep]
    rfl
  have hload1 : lookupPath c5Store1.stateTree ["ui", "loading"] =
      some (.vBool true) := by
    simp only [lookupPath, hu1, hload]
  have hnotif1 : lookupPath c5Store1.stateTree ["ui", "notifications"] =
      some (.vArr []) := by
    simp only [lookupPath, hu1, hnotif]
  refine ⟨rfl, trivial, trivial, ?_⟩
  obtain ⟨st2, notified, hok, heq⟩ :=
    setState_frame c5Store1 c5Upd2 ["ui", "loading"] trivial
  obtain ⟨st2b, notifiedb, hokb, heqb⟩ :=
    setState_frame c5Store1 c5Upd2 ["ui", "notifications"] trivial
  refine ⟨st2, notified, hok, ?_, ?_⟩
  · rw [heq]
    exact hload1
  · have h12 := Except.ok.inj (hok.symm.trans hokb)
    have hfst : st2 = st2b := congrArg Prod.fst h12
    rw [hfst, heqb]
    exact hnotif1

/-! ## Theorems: waitFor cancellation (C7) -/

theorem listenerCount_eq (bus : EventBus) (n : String) :
    bus.listenerCount n = (listenersOf bus n).length := by
  unfold EventBus.listenerCount listenersOf
  cases getKV bus.events n with
  | none => rfl
  | some l => rfl

theorem listenersOf_on_self (bus : EventBus) (n : String) (cb : Callback)
    (o : Bool) (p : Int) :
    listenersOf (bus.on n cb o p).1 n =
      ((listenersOf bus n) ++
        [({ callback := cb, once := o, priority := p,
            lid := bus.nextId } : Listener)]).mergeSort prioLE := by
  unfold EventBus.on listenersOf
  dsimp only
  rw [getKV_putKV_self]
  rfl

theorem listenersOf_off_byCallback (bus : EventBus) (n : String)
    (cid : Nat) :
    listenersOf (bus.off n (.byCallback cid)) n =
      (listenersOf bus n).eraseP (fun l => l.callback.cid == cid) := by
  unfold EventBus.off listenersOf
  cases hg : getKV bus.events n with
  | none => simp [hg]
  | some ls =>
    dsimp only
    split
    · rename_i hlen
      rw [getKV_delKV_self]
      simp only [Option.getD_none, Option.getD_some]
      exact (List.length_eq_zero.mp hlen).symm
    · rw [getKV_putKV_self]
      rfl

theorem eraseP_no_match {α : Type} (p : α → Bool) :
    ∀ (l : List α), l.countP p ≤ 1 →
    ∀ x ∈ l.eraseP p, p x = false := by
  intro l
  induction l with
  | nil => intro h x hx; simp at hx
  | cons a rest ih =>
    intro h x hx
    by_cases pa : p a = true
    · rw [List.eraseP_cons_of_pos pa] at hx
      have hc : rest.countP p = 0 := by
        rw [List.countP_cons_of_pos _ _ pa] at h
        omega
      have := List.countP_eq_zero.mp hc x hx
      simpa using this
    · rw [List.eraseP_cons_of_neg pa] at hx
      rcases List.mem_cons.mp hx with hx | hx
      · subst hx
        simpa using pa
      · apply ih _ x hx
        rw [List.countP_cons_of_neg _ _ pa] at h
        exact h

/-- **C7.** The state transitions of `waitFor(eventName, timeoutMs)`: the
transient once-subscription is registered; if the timeout fires first it
is removed by callback identity and the promise is rejected with the
timeout error — `subscriberCount(eventName)` is back to its previous
value and no listener with the transient callback remains; if a matching
event is published first, the promise resolves with that event's payload
and event object (the value handed to `resolve` appears in the publish's
result list). -/
theorem waitFor_contract (bus : EventBus) (n : String) (cid tmo : Nat)
    (d : JVal)
    (hfresh : ∀ l ∈ listenersOf bus n, l.callback.cid ≠ cid) :
    ((bus.waitForRegister n (waitForCallback cid)).1.waitForTimeout n
        (waitForCallback cid) tmo).1.listenerCount n =
      bus.listenerCount n ∧
    ((bus.waitForRegister n (waitForCallback cid)).1.waitForTimeout n
        (waitForCallback cid) tmo).2 =
      "Event " ++ n ++ " timeout after " ++ toString tmo ++ "ms" ∧
    (∀ l ∈ listenersOf
        ((bus.waitForRegister n (waitForCallback cid)).1.waitForTimeout n
          (waitForCallback cid) tmo).1 n,
      l.callback.cid ≠ cid) ∧
    EmitResult.ok (.vObj [("data",
        (applyBusMiddleware bus.middleware ⟨n, d⟩).data),
      ("event", .vObj [("name",
          .vStr (applyBusMiddleware bus.middleware ⟨n, d⟩).name),
        ("data", (applyBusMiddleware bus.middleware ⟨n, d⟩).data)])]) ∈
      ((bus.waitForRegister n (waitForCallback cid)).1.emit n d).2.1 := by
  have hreg : listenersOf (bus.waitForRegister n (waitForCallback cid)).1
      n = ((listenersOf bus n) ++
        [({ callback := waitForCallback cid, once := true, priority := 0,
            lid := bus.nextId } : Listener)]).mergeSort prioLE :=
    listenersOf_on_self bus n (waitForCallback cid) true 0
  have hoff : listenersOf
      ((bus.waitForRegister n (waitForCallback cid)).1.waitForTimeout n
        (waitForCallback cid) tmo).1 n =
      (listenersOf (bus.waitForRegister n (waitForCallback cid)).1
        n).eraseP (fun l => l.callback.cid == cid) :=
    listenersOf_off_byCallback _ n cid
  have hmem : Listener.mk (waitForCallback cid) true 0 bus.nextId ∈
      listenersOf (bus.waitForRegister n (waitForCallback cid)).1 n := by
    rw [hreg]
    exact List.mem_mergeSort.mpr
      (List.mem_append.mpr (Or.inr (List.mem_singleton.mpr rfl)))
  have hcount1 : (listenersOf
      (bus.waitForRegister n (waitForCallback cid)).1 n).length =
      (listenersOf bus n).length + 1 := by
    rw [hreg, List.length_mergeSort, List.length_append]
    rfl
  have hcountP : (listenersOf
      (bus.waitForRegister n (waitForCallback cid)).1 n).countP
      (fun l => l.callback.cid == cid) ≤ 1 := by
    rw [hreg]
    have hperm := List.mergeSort_perm
      ((listenersOf bus n) ++
        [({ callback := waitForCallback cid, once := true, priority := 0,
            lid := bus.nextId } : Listener)]) prioLE
    rw [hperm.countP_eq, List.countP_append]
    have h0 : (listenersOf bus n).countP
        (fun l => l.callback.cid == cid) = 0 := by
      apply List.countP_eq_zero.mpr
      intro x hx
      simpa using hfresh x hx
    rw [h0]
    simp [List.countP_cons, waitForCallback]
  refine ⟨?_, rfl, ?_, ?_⟩
  · rw [listenerCount_eq, listenerCount_eq, hoff,
      List.length_eraseP_of_mem hmem (by simp [waitForCallback]), hcount1]
    omega
  · intro l hl
    rw [hoff] at hl
    have := eraseP_no_match _ _ hcountP l hl
    simpa using this
  · rw [(emit_results_invoked
      (bus.waitForRegister n (waitForCallback cid)).1 n d).1]
    apply List.mem_append.mpr
    left
    apply List.mem_map.mpr
    exact ⟨_, hmem, rfl⟩

/-- Witness for C7 on a fresh bus with a concrete timeout and payload. -/
theorem waitFor_contract_witness :
    (∀ l ∈ listenersOf EventBus.construct "x", l.callback.cid ≠ 0) ∧
    ((EventBus.construct.waitForRegister "x"
        (waitForCallback 0)).1.waitForTimeout "x"
        (waitForCallback 0) 50).1.listenerCount "x" =
      EventBus.construct.listenerCount "x" ∧
    EmitResult.ok (.vObj [("data", .vNum 5),
      ("event", .vObj [("name", .vStr "x"), ("data", .vNum 5)])]) ∈
      ((EventBus.construct.waitForRegister "x"
        (waitForCallback 0)).1.emit "x" (.vNum 5)).2.1 := by
  have hfresh : ∀ l ∈ listenersOf EventBus.construct "x",
      l.callback.cid ≠ 0 := by
    intro l hl
    simp [listenersOf, EventBus.construct, getKV] at hl
  have h := waitFor_contract EventBus.construct "x" 0 50 (.vNum 5) hfresh
  exact ⟨hfresh, h.1, h.2.2.2⟩

/-! ## Theorems: stable priority ordering of subscriptions (C1)

`Array.sort` with comparator `(a, b) => b.priority - a.priority` is a
stable sort (mandated by the ECMAScript specification) and is modelled by
`List.mergeSort prioLE`.  The central lemma `mergeSort_sorted_append`
shows that on a list that is already strictly ordered by (priority
descending, registration order) followed by a freshly registered
listener, the stable sort coincides with the spec's stable insertion. -/

theorem prioLE_trans : ∀ (a b c : Listener),
    prioLE a b → prioLE b c → prioLE a c := by
  intro a b c h1 h2
  simp only [prioLE, decide_eq_true_eq] at *
  omega

theorem prioLE_total : ∀ (a b : Listener), prioLE a b || prioLE b a := by
  intro a b
  simp only [prioLE, Bool.or_eq_true, decide_eq_true_eq]
  omega

theorem specInsert_perm (a : Listener) :
    ∀ (cur : List Listener), (specInsert a cur).Perm (cur ++ [a]) := by
  intro cur
  induction cur with
  | nil => exact List.Perm.refl _
  | cons x xs ih =>
    simp only [specInsert]
    split
    · exact List.perm_append_singleton a (x :: xs) |>.symm
    · exact ih.cons x

theorem mem_specInsert {a y : Listener} {cur : List Listener} :
    y ∈ specInsert a cur ↔ y = a ∨ y ∈ cur := by
  rw [(specInsert_perm a cur).mem_iff]
  simp [List.mem_append, or_comm]

theorem pair_sublist_total {x y : α} :
    ∀ {l : List α}, x ∈ l → y ∈ l → x ≠ y →
    List.Sublist [x, y] l ∨ List.Sublist [y, x] l := by
  intro l
  induction l with
  | nil => intro hx; simp at hx
  | cons z zs ih =>
    intro hx hy hne
    by_cases hxz : x = z
    · subst hxz
      have hy2 : y ∈ zs := by
        rcases List.mem_cons.mp hy with h | h
        · exact absurd h.symm hne
        · exact h
      exact Or.inl (List.Sublist.cons₂ x (List.singleton_sublist.mpr hy2))
    · by_cases hyz : y = z
      · subst hyz
        have hx2 : x ∈ zs := by
          rcases List.mem_cons.mp hx with h | h
          · exact absurd h hxz
          · exact h
        exact Or.inr (List.Sublist.cons₂ y (List.singleton_sublist.mpr hx2))
      · have hx2 : x ∈ zs := by
          rcases List.mem_cons.mp hx with h | h
          · exact absurd h hxz
          · exact h
        have hy2 : y ∈ zs := by
          rcases List.mem_cons.mp hy with h | h
          · exact absurd h hyz
          · exact h
        rcases ih hx2 hy2 hne with h | h
        · exact Or.inl (h.cons z)
        · exact Or.inr (h.cons z)

theorem sublist_pair_asymm {x y : α} :
    ∀ {l : List α}, l.Nodup → List.Sublist [x, y] l →
    List.Sublist [y, x] l → False := by
  intro l
  induction l with
  | nil => intro _ h1; simp at h1
  | cons z zs ih =>
    intro hnd h1 h2
    have hz : z ∉ zs := (List.nodup_cons.mp hnd).1
    have hnd2 : zs.Nodup := (List.nodup_cons.mp hnd).2
    cases h1 with
    | cons _ h1a =>
      cases h2 with
      | cons _ h2a => exact ih hnd2 h1a h2a
      | cons₂ _ h2a =>
        have hy : y ∈ zs := h1a.subset (by simp)
        exact hz hy
    | cons₂ _ h1a =>
      cases h2 with
      | cons _ h2a =>
        have hx : x ∈ zs := h2a.subset (by simp)
        exact hz hx
      | cons₂ _ h2a =>
        have hx : x ∈ zs := h2a.subset (by simp)
        exact hz hx

theorem lexLE_of_lexLT {a b : Listener} (h : lexLT a b) :
    lexLE a b = true := by
  rcases h with h | ⟨h1, h2⟩ <;>
  · simp only [lexLE, prioLE]
    split_ifs with hab hba <;> simp_all <;> omega

theorem lexLE_both {a b : Listener} (h1 : lexLE a b = true)
    (h2 : lexLE b a = true) :
    a.priority = b.priority ∧ a.lid = b.lid := by
  simp only [lexLE, prioLE] at h1 h2
  split_ifs at h1 h2
  simp_all
  omega

theorem ne_of_lexLT {a b : Listener} (h : lexLT a b) : a ≠ b := by
  intro hc
  subst hc
  rcases h with h | ⟨_, h⟩ <;> omega

theorem eq_of_mem_pairwise_lexLT {x y : Listener} {l : List Listener}
    (hp : l.Pairwise lexLT) (hx : x ∈ l) (hy : y ∈ l)
    (hpri : x.priority = y.priority) (hlid : x.lid = y.lid) : x = y := by
  by_cases hne : x = y
  · exact hne
  · rcases pair_sublist_total hx hy hne with hs | hs
    · have := List.pairwise_iff_forall_sublist.mp hp hs
      rcases this with h | ⟨_, h⟩ <;> omega
    · have := List.pairwise_iff_forall_sublist.mp hp hs
      rcases this with h | ⟨_, h⟩ <;> omega

theorem specInsert_pairwise (a : Listener) :
    ∀ (cur : List Listener), cur.Pairwise lexLT →
    (∀ x ∈ cur, x.lid < a.lid) →
    (specInsert a cur).Pairwise lexLT := by
  intro cur
  induction cur with
  | nil =>
    intro _ _
    simp [specInsert]
  | cons x xs ih =>
    intro hp hf
    rw [List.pairwise_cons] at hp
    obtain ⟨hx_rel, hxs⟩ := hp
    simp only [specInsert]
    split
    · rename_i hlt
      rw [List.pairwise_cons]
      refine ⟨?_, ?_⟩
      · intro z hz
        rcases List.mem_cons.mp hz with rfl | hz
        · exact Or.inl hlt
        · rcases hx_rel z hz with h | ⟨h, _⟩
          · exact Or.inl (by omega)
          · exact Or.inl (by omega)
      · rw [List.pairwise_cons]
        exact ⟨hx_rel, hxs⟩
    · rename_i hge
      rw [List.pairwise_cons]
      refine ⟨?_, ?_⟩
      · intro z hz
        rcases mem_specInsert.mp hz with rfl | hz
        · have ha : z.priority ≤ x.priority := by omega
          rcases eq_or_lt_of_le ha with heq | hlt2
          · exact Or.inr ⟨heq.symm, hf x (by simp)⟩
          · exact Or.inl hlt2
        · exact hx_rel z hz
      · exact ih hxs (fun z hz => hf z (List.mem_cons_of_mem _ hz))

theorem mergeSort_sorted_append (cur : List Listener) (a : Listener)
    (hs : cur.Pairwise lexLT)
    (hf : ∀ x ∈ cur, x.lid < a.lid) :
    (cur ++ [a]).mergeSort prioLE = specInsert a cur := by
  have hpermL := List.mergeSort_perm (cur ++ [a]) prioLE
  have hpermR := specInsert_perm a cur
  have hnodup_cur : cur.Nodup := hs.imp (fun h => ne_of_lexLT h)
  have hnotin : a ∉ cur := fun hc => by have := hf a hc; omega
  have hnodup : (cur ++ [a]).Nodup := by
    rw [List.nodup_append]
    refine ⟨hnodup_cur, List.nodup_singleton a, ?_⟩
    intro z hz hza
    rw [List.mem_singleton.mp hza] at hz
    exact hnotin hz
  have hsorted := List.sorted_mergeSort prioLE_trans prioLE_total
    (cur ++ [a])
  have hlexL : ((cur ++ [a]).mergeSort prioLE).Pairwise
      (fun u v => lexLE u v = true) := by
    rw [List.pairwise_iff_forall_sublist]
    intro u v hsub
    have huv : prioLE u v = true :=
      List.pairwise_iff_forall_sublist.mp hsorted hsub
    by_cases hvu : prioLE v u = true
    · by_cases hlid : u.lid ≤ v.lid
      · rw [lexLE, if_pos huv, if_pos hvu]
        simpa using hlid
      · exfalso
        have hlidlt : v.lid < u.lid := by omega
        have hune : u ≠ v := by
          intro hc
          rw [hc] at hlidlt
          omega
        have humem : u ∈ cur ++ [a] :=
          hpermL.subset (hsub.subset (by simp))
        have hvmem : v ∈ cur ++ [a] :=
          hpermL.subset (hsub.subset (by simp))
        have hvu_sub : List.Sublist [v, u] (cur ++ [a]) := by
          rcases List.mem_append.mp humem with huc | hua
          · rcases List.mem_append.mp hvmem with hvc | hva
            · rcases pair_sublist_total huc hvc hune with hs1 | hs1
              · exfalso
                have := List.pairwise_iff_forall_sublist.mp hs hs1
                simp only [prioLE, decide_eq_true_eq] at huv hvu
                rcases this with h | ⟨_, h⟩ <;> omega
              · exact hs1.trans (List.sublist_append_left cur [a])
            · exfalso
              have := hf u huc
              rw [List.mem_singleton.mp hva] at hlidlt
              omega
          · have hua2 : u = a := List.mem_singleton.mp hua
            rcases List.mem_append.mp hvmem with hvc | hva
            · have h1 : List.Sublist [v] cur :=
                List.singleton_sublist.mpr hvc
              have h2 : List.Sublist [u] [a] := by rw [hua2]
              exact List.Sublist.append h1 h2
            · exfalso
              exact hune (by
                rw [hua2, List.mem_singleton.mp hva])
        have hstab := List.pair_sublist_mergeSort prioLE_trans prioLE_total
          hvu hvu_sub
        have hnodL : ((cur ++ [a]).mergeSort prioLE).Nodup :=
          hnodup.perm hpermL.symm
        exact sublist_pair_asymm hnodL hsub hstab
    · rw [lexLE, if_pos huv, if_neg hvu]
  have hlexR : (specInsert a cur).Pairwise
      (fun u v => lexLE u v = true) :=
    (specInsert_pairwise a cur hs hf).imp (fun h => lexLE_of_lexLT h)
  refine List.Perm.eq_of_sorted ?_ hlexL hlexR (hpermL.trans hpermR.symm)
  intro u v humem hvmem huv hvu
  obtain ⟨hpri, hlid⟩ := lexLE_both huv hvu
  have hu2 : u ∈ cur ++ [a] := hpermL.subset humem
  have hv2 : v ∈ cur ++ [a] := hpermR.subset hvmem
  rcases List.mem_append.mp hu2 with huc | hua
  · rcases List.mem_append.mp hv2 with hvc | hva
    · exact eq_of_mem_pairwise_lexLT hs huc hvc hpri hlid
    · exfalso
      have := hf u huc
      rw [List.mem_singleton.mp hva] at hlid
      omega
  · rcases List.mem_append.mp hv2 with hvc | hva
    · exfalso
      have := hf v hvc
      rw [List.mem_singleton.mp hua] at hlid
      omega
    · rw [List.mem_singleton.mp hua, List.mem_singleton.mp hva]

theorem goodBus_construct : GoodBus EventBus.construct := by
  intro n
  have hnil : listenersOf EventBus.construct n = [] := rfl
  rw [hnil]
  exact ⟨List.Pairwise.nil, by intro x hx; simp at hx⟩

theorem on_eq_specOn (bus : EventBus) (n : String) (cb : Callback)
    (o : Bool) (p : Int) (h : GoodBus bus) :
    bus.on n cb o p = bus.specOn n cb o p := by
  unfold EventBus.on EventBus.specOn
  dsimp only
  rw [mergeSort_sorted_append ((getKV bus.events n).getD [])
    (Listener.mk cb o p bus.nextId) (h n).1 (fun x hx => (h n).2 x hx)]

theorem specOn_good (bus : EventBus) (n : String) (cb : Callback)
    (o : Bool) (p : Int) (h : GoodBus bus) :
    GoodBus (bus.specOn n cb o p).1 := by
  have hnext : (bus.specOn n cb o p).1.nextId = bus.nextId + 1 := rfl
  intro m
  by_cases hm : m = n
  · subst hm
    have hl : listenersOf (bus.specOn m cb o p).1 m =
        specInsert (Listener.mk cb o p bus.nextId) (listenersOf bus m) := by
      unfold EventBus.specOn listenersOf
      dsimp only
      rw [getKV_putKV_self]
      rfl
    rw [hl, hnext]
    refine ⟨?_, ?_⟩
    · exact specInsert_pairwise _ _ (h m).1 (fun x hx => (h m).2 x hx)
    · intro x hx
      rcases mem_specInsert.mp hx with rfl | hx
      · exact Nat.lt_succ_self _
      · exact Nat.lt_succ_of_lt ((h m).2 x hx)
  · have hl : listenersOf (bus.specOn n cb o p).1 m = listenersOf bus m := by
      unfold EventBus.specOn listenersOf
      dsimp only
      rw [getKV_putKV_other _ _ hm]
    rw [hl, hnext]
    exact ⟨(h m).1, fun x hx => Nat.lt_succ_of_lt ((h m).2 x hx)⟩

theorem registerAll_aux :
    ∀ (regs : List Reg) (bus : EventBus), GoodBus bus →
    regs.foldl (fun b r => (b.on r.eventName r.cb r.once r.priority).1)
        bus =
      regs.foldl
        (fun b r => (b.specOn r.eventName r.cb r.once r.priority).1) bus ∧
    GoodBus (regs.foldl
      (fun b r => (b.on r.eventName r.cb r.once r.priority).1) bus) := by
  intro regs
  induction regs with
  | nil => intro bus h; exact ⟨rfl, h⟩
  | cons r rest ih =>
    intro bus h
    have he := on_eq_specOn bus r.eventName r.cb r.once r.priority h
    have hg : GoodBus (bus.on r.eventName r.cb r.once r.priority).1 := by
      rw [he]
      exact specOn_good bus r.eventName r.cb r.once r.priority h
    obtain ⟨ih1, ih2⟩ := ih _ hg
    refine ⟨?_, ?_⟩
    · simp only [List.foldl_cons]
      rw [ih1, he]
    · simp only [List.foldl_cons]
      exact ih2

/-- **C1.** For every sequence of registrations, the source's
push-and-stable-sort bookkeeping coincides exactly with the spec's
"kept sorted by descending priority, ties broken by registration order
(stable insertion)"; every per-name list is strictly in that order;
`publish` invokes the per-name subscribers in exactly that list order;
and in particular for priorities [3,1,3,0] registered in that order on
one event, the invocation order is the ids [0, 2, 1, 3] — first
priority-3, second priority-3 (tie broken by registration), priority-1,
priority-0. -/
theorem subscribe_priority_order :
    (∀ regs : List Reg, registerAll regs = specRegisterAll regs) ∧
    (∀ (regs : List Reg) (n : String),
      (listenersOf (registerAll regs) n).Pairwise lexLT) ∧
    (∀ (regs : List Reg) (n : String) (d : JVal),
      ((registerAll regs).emit n d).2.2 =
        (listenersOf (registerAll regs) n).map (fun l => l.lid) ++
        (registerAll regs).wildcardListeners.map (fun w => w.lid)) ∧
    ((registerAll
        [⟨"E", pureCallback 100 .vNull, false, 3⟩,
         ⟨"E", pureCallback 101 .vNull, false, 1⟩,
         ⟨"E", pureCallback 102 .vNull, false, 3⟩,
         ⟨"E", pureCallback 103 .vNull, false, 0⟩]).emit "E"
        .vNull).2.2 = [0, 2, 1, 3] := by
  refine ⟨?_, ?_, ?_, ?_⟩
  · intro regs
    exact (registerAll_aux regs _ goodBus_construct).1
  · intro regs n
    exact ((registerAll_aux regs _ goodBus_construct).2 n).1
  · intro regs n d
    exact (emit_results_invoked _ n d).2
  · rw [show registerAll
        [⟨"E", pureCallback 100 .vNull, false, 3⟩,
         ⟨"E", pureCallback 101 .vNull, false, 1⟩,
         ⟨"E", pureCallback 102 .vNull, false, 3⟩,
         ⟨"E", pureCallback 103 .vNull, false, 0⟩] =
      specRegisterAll
        [⟨"E", pureCallback 100 .vNull, false, 3⟩,
         ⟨"E", pureCallback 101 .vNull, false, 1⟩,
         ⟨"E", pureCallback 102 .vNull, false, 3⟩,
         ⟨"E", pureCallback 103 .vNull, false, 0⟩] from
      (registerAll_aux _ _ goodBus_construct).1]
    rfl

end StoreSystem
